import Mathlib

/-!  Verification development for redis_counter.py (class RedisCounter).

The Python source is shallowly embedded here: the redis backend becomes an
explicit string-keyed store (strings and lists of strings, as redis holds
them), every RedisCounter method becomes a store transformer, and the two
places the source consults the wall clock (time.time()) become explicit
rational-number arguments.  Python float parsing (float(...)) and decimal
serialization (str(...) of ints / redis INCR) are modelled by executable
parse and print functions over characters.  -/

/- ## Exact numeric values
   Timestamps and parsed floats are exact rational numbers, kept as an
   integer numerator over a (positive, in every value this program builds)
   natural denominator, without normalization: Mathlib's ℚ operations are
   irreducible and would block kernel evaluation.  Ordering, subtraction
   and multiplication are the usual fraction rules by cross multiplication. -/

structure Frac where
  num : ℤ
  den : ℕ
deriving DecidableEq

instance : LT Frac := ⟨fun a b => a.num * (b.den : ℤ) < b.num * (a.den : ℤ)⟩

instance : LE Frac := ⟨fun a b => a.num * (b.den : ℤ) ≤ b.num * (a.den : ℤ)⟩

instance (a b : Frac) : Decidable (a < b) := Int.decLt _ _

instance (a b : Frac) : Decidable (a ≤ b) := Int.decLe _ _

instance : Sub Frac := ⟨fun a b => ⟨a.num * b.den - b.num * a.den, a.den * b.den⟩⟩

instance : Mul Frac := ⟨fun a b => ⟨a.num * b.num, a.den * b.den⟩⟩

instance : OfNat Frac n := ⟨⟨n, 1⟩⟩

instance : NatCast Frac := ⟨fun n => ⟨n, 1⟩⟩

theorem Frac.lt_def (a b : Frac) : a < b ↔ a.num * (b.den : ℤ) < b.num * (a.den : ℤ) :=
  Iff.rfl

theorem Frac.le_def (a b : Frac) : a ≤ b ↔ a.num * (b.den : ℤ) ≤ b.num * (a.den : ℤ) :=
  Iff.rfl

theorem Frac.not_lt (a b : Frac) : ¬ a < b ↔ b ≤ a := by
  rw [Frac.lt_def, Frac.le_def]; omega

/-- Transitivity of the fraction order through a middle value with positive
denominator (every value parsed from a decimal string has one). -/
theorem Frac.le_trans (a b c : Frac) (hb : 0 < b.den) (h1 : a ≤ b) (h2 : b ≤ c) :
    a ≤ c := by
  rw [Frac.le_def] at h1 h2 ⊢
  have hbz : (0 : ℤ) < (b.den : ℤ) := by exact_mod_cast hb
  nlinarith [mul_le_mul_of_nonneg_right h1 (Int.ofNat_nonneg c.den),
    mul_le_mul_of_nonneg_right h2 (Int.ofNat_nonneg a.den)]

/- ## Decimal parsing and printing
   Models Python int(...) / float(...) on decimal strings, and the decimal
   rendering used by redis INCR and by str() on the values this program
   stores.  -/

def digitChar (d : ℕ) : Char :=
  match d with
  | 0 => '0'
  | 1 => '1'
  | 2 => '2'
  | 3 => '3'
  | 4 => '4'
  | 5 => '5'
  | 6 => '6'
  | 7 => '7'
  | 8 => '8'
  | _ => '9'

def digitVal (c : Char) : ℕ := c.toNat - 48

/-- Big-endian decimal digits of n (recursion measure made explicit as fuel
so that the definition reduces inside the kernel; fuel n + 1 always
suffices since n / 10 < n). -/
def natDigitsAux : ℕ → ℕ → List Char → List Char
  | 0, _, acc => acc
  | fuel + 1, n, acc =>
    if n < 10 then digitChar n :: acc
    else natDigitsAux fuel (n / 10) (digitChar (n % 10) :: acc)

def natDigits (n : ℕ) : List Char := natDigitsAux (n + 1) n []

/-- Proof-side twin of natDigits with the recursion structure of the
usual division algorithm. -/
def natDigitsW (n : ℕ) : List Char :=
  if _h : n < 10 then [digitChar n]
  else natDigitsW (n / 10) ++ [digitChar (n % 10)]
decreasing_by exact Nat.div_lt_self (by omega) (by omega)

def natRepr (n : ℕ) : String := String.mk (natDigits n)

def intRepr (m : ℤ) : String :=
  if m < 0 then String.mk ('-' :: natDigits (-m).toNat) else natRepr m.toNat

def digitsVal (cs : List Char) : ℕ := cs.foldl (fun a c => a * 10 + digitVal c) 0

def isDigits (cs : List Char) : Bool := !cs.isEmpty && cs.all (fun c => c.isDigit)

/-- Python int(s) on the strings this development meets: an optional sign
followed by decimal digits; anything else raises, modelled as none. -/
def pyInt (s : String) : Option ℤ :=
  match s.data with
  | [] => none
  | c :: rest =>
    if c = '-' then (if isDigits rest then some (-(digitsVal rest : ℤ)) else none)
    else if c = '+' then (if isDigits rest then some ((digitsVal rest : ℤ)) else none)
    else if isDigits (c :: rest) then some ((digitsVal (c :: rest) : ℤ)) else none

def pyFloatCore (cs : List Char) : Option Frac :=
  match cs.splitOn '.' with
  | [a] => if isDigits a then some ⟨(digitsVal a : ℤ), 1⟩ else none
  | [a, b] =>
    if (a.all (fun c => c.isDigit) && b.all (fun c => c.isDigit)) && !(a.isEmpty && b.isEmpty) then
      some ⟨(digitsVal a : ℤ) * (10 : ℤ) ^ b.length + (digitsVal b : ℤ), 10 ^ b.length⟩
    else none
  | _ => none

/-- Python float(s): optional sign, then digits with an optional decimal
point (the forms this program ever writes or reads); junk raises, modelled
as none. -/
def pyFloat (s : String) : Option Frac :=
  match s.data with
  | [] => none
  | c :: rest =>
    if c = '-' then (pyFloatCore rest).map (fun v => Frac.mk (-v.num) v.den)
    else if c = '+' then pyFloatCore rest
    else pyFloatCore (c :: rest)

/-- The string form under which a timestamp value is stored in a redis list
(str() of the Python number pushed by rpush). -/
def floatRepr (t : Frac) : String :=
  if t.den = 1 then intRepr t.num
  else intRepr t.num ++ "/" ++ natRepr t.den

/- ## The redis store
   A flat map from keys to values; a value is a string or a list of strings,
   exactly the two redis types this program uses.  An empty list is never
   stored: as in redis, popping the last element removes the key.  -/

inductive RVal where
  | str : String → RVal
  | list : List String → RVal
deriving DecidableEq

/-- The backend state: an association list from keys to values, at most one
binding per key relevant (lookup takes the first, updates erase the rest). -/
def Store : Type := List (String × RVal)

def emptyStore : Store := []

def Store.find : Store → String → Option RVal
  | [], _ => none
  | (q, v) :: rest, k => if k = q then some v else Store.find rest k

def Store.erase : Store → String → Store
  | [], _ => []
  | (q, v) :: rest, k => if q = k then Store.erase rest k else (q, v) :: Store.erase rest k

def Store.upd (st : Store) (k : String) (v : Option RVal) : Store :=
  match v with
  | none => st.erase k
  | some w => (k, w) :: st.erase k

def Store.get (st : Store) (k : String) : Option String :=
  match st.find k with
  | some (RVal.str s) => some s
  | _ => none

def Store.existsKey (st : Store) (k : String) : Bool := (st.find k).isSome

def Store.setStr (st : Store) (k v : String) : Store := st.upd k (some (RVal.str v))

def Store.del (st : Store) (k : String) : Store := st.upd k none

def Store.getList (st : Store) (k : String) : List String :=
  match st.find k with
  | some (RVal.list l) => l
  | _ => []

def Store.rpush (st : Store) (k v : String) : Store :=
  st.upd k (some (RVal.list (st.getList k ++ [v])))

def Store.lpush (st : Store) (k v : String) : Store :=
  st.upd k (some (RVal.list (v :: st.getList k)))

def Store.llen (st : Store) (k : String) : ℕ := (st.getList k).length

def Store.lindexLast (st : Store) (k : String) : Option String := (st.getList k).getLast?

def Store.lpop (st : Store) (k : String) : Option String × Store :=
  match st.getList k with
  | [] => (none, st)
  | x :: xs => (some x, if xs.isEmpty then st.del k else st.upd k (some (RVal.list xs)))

/-- redis INCR: parse the stored integer (absent treated as 0), add one,
store the decimal rendering back, return the new value. -/
def Store.incr (st : Store) (k : String) : ℤ × Store :=
  let cur : ℤ :=
    match st.get k with
    | some s => (pyInt s).getD 0
    | none => 0
  (cur + 1, st.setStr k (intRepr (cur + 1)))

/- ## The program (redis_counter.py) -/

/-- Source constant KEY_PREFIX = 'RedisCounter:' (name adjusted). -/
def KEY_PREFIX_STR : String := "RedisCounter:"

def RECENT_COUNTS_SUFFIXES : List String :=
  ["last_five_seconds", "last_hour", "last_day", "last_week", "last_month"]

def RECENT_COUNTS_TIME_INTERVALS : List Frac :=
  [5, 60 * 60, 60 * 60 * 24, 60 * 60 * 24 * 7, 60 * 60 * 24 * 30]

def PERIODIC_COUNTS_SUFFIXES : List String :=
  ["historical_hour", "historical_day", "historical_week", "historical_month"]

def PERIODIC_COUNTS_LIST_SUFFIXES : List String :=
  ["historical_hours_list", "historical_days_list", "historical_weeks_list",
   "historical_months_list"]

def PERIODIC_COUNTS_TIMESTAMP_FORMATS : List String :=
  ["%Y%m%d%H", "%Y%m%d", "%Y%m%d", "%Y%m"]

def recent_counts_keys (ck : String) : List String :=
  RECENT_COUNTS_SUFFIXES.map (fun s => ck ++ ":" ++ s)

def periodic_counts_key_prefixes (ck : String) : List String :=
  PERIODIC_COUNTS_SUFFIXES.map (fun s => ck ++ ":" ++ s ++ ":")

def periodic_list_keys (ck : String) : List String :=
  PERIODIC_COUNTS_LIST_SUFFIXES.map (fun s => ck ++ ":" ++ s)

/-- Models time.strftime(format, time.localtime(t)) from the source's
_timestamp_for_format: an external C-library call, modelled as epoch-aligned
truncation at the format's granularity.  What the development relies on is
only that the label is a pure function of (t, format) at the stated
granularity; the week format string is the very same string as the day
format, exactly as in the source. -/
def fracFloorDiv (t : Frac) (n : ℕ) : ℤ := t.num.fdiv (t.den * n)

def timestamp_for_format (t : Frac) (fmt : String) : String :=
  if fmt = "%Y%m%d%H" then intRepr (fracFloorDiv t 3600)
  else if fmt = "%Y%m%d" then intRepr (fracFloorDiv t 86400)
  else if fmt = "%Y%m" then intRepr (fracFloorDiv t 2592000)
  else ""

/-- Source _initCounterIfNecessary: set the key to '0' only when absent. -/
def initCounterIfNecessary (st : Store) (key : String) : Store :=
  if st.existsKey key = false then st.setStr key "0" else st

def current_count (ck : String) (st : Store) : Option String := st.get ck

/-- The periodic bucket key derived for granularity i from timestamp t
(lines 76-77 of the source). -/
def periodicKeyAt (ck : String) (i : ℕ) (t : Frac) : String :=
  (periodic_counts_key_prefixes ck).getD i "" ++
    timestamp_for_format t (PERIODIC_COUNTS_TIMESTAMP_FORMATS.getD i "")

/-- One iteration of increment_counter's periodic loop (lines 75-83):
derive the bucket key from this iteration's own time sample t, lazily init
it, INCR it, and append it to the granularity's index list when the list's
last element differs. -/
def incrementPeriodicStep (ck : String) (i : ℕ) (t : Frac) (st : Store) : Store :=
  let periodic_key := periodicKeyAt ck i t
  let st1 := initCounterIfNecessary st periodic_key
  let st2 := (st1.incr periodic_key).2
  let periodic_list_key := (periodic_list_keys ck).getD i ""
  if st2.lindexLast periodic_list_key ≠ some periodic_key then
    st2.rpush periodic_list_key periodic_key
  else st2

/-- increment_counter (lines 69-86).  The source samples time.time() once
(line 70, argument now) for the five window appends, and then again inside
each iteration of the periodic loop (line 77); tper i is the sample taken in
iteration i. -/
def increment_counter (ck : String) (now : Frac) (tper : ℕ → Frac) (st : Store) : ℤ × Store :=
  let st1 := (recent_counts_keys ck).foldl (fun s key => s.rpush key (floatRepr now)) st
  let st2 := (List.range PERIODIC_COUNTS_SUFFIXES.length).foldl
    (fun s i => incrementPeriodicStep ck i (tper i) s) st1
  st2.incr ck

/-- The pops-and-deletes loop of delete_counter (lines 96-100), with fuel;
the fuel is instantiated with the list's length, which bounds the number of
loop iterations since every iteration pops one element and no iteration
grows the list. -/
def drainListAux : ℕ → Store → String → Store
  | 0, st, _ => st
  | fuel + 1, st, lk =>
    match st.lpop lk with
    | (none, st2) => st2
    | (some k, st2) => if k = "" then st2 else drainListAux fuel (st2.del k) lk

def drainList (st : Store) (lk : String) : Store := drainListAux (st.llen lk) st lk

/-- delete_counter (lines 92-100). -/
def delete_counter (ck : String) (st : Store) : Store :=
  let st1 := st.del ck
  let st2 := (recent_counts_keys ck).foldl (fun s k => s.del k) st1
  (periodic_list_keys ck).foldl (fun s lk => drainList s lk) st2

/-- reset_counter (lines 88-90). -/
def reset_counter (ck : String) (st : Store) : Store :=
  (delete_counter ck st).setStr ck "0"

/-- The eviction loop of _counts_in_recent_count_index (lines 128-137),
carrying the last popped entry hs and its parsed value hv; fuel bounds the
number of pops, instantiated with the list length. -/
def recentReadLoop (cutoff : Frac) (lk : String) :
    ℕ → String → Frac → Store → ℕ × Store
  | 0, hs, hv, st =>
    if hv < cutoff then (st.llen lk, st)
    else ((st.lpush lk hs).llen lk, st.lpush lk hs)
  | fuel + 1, hs, hv, st =>
    if hv < cutoff then
      match st.lpop lk with
      | (none, st2) => (st2.llen lk, st2)
      | (some s, st2) =>
        match pyFloat s with
        | none => (st2.llen lk, st2)
        | some v => recentReadLoop cutoff lk fuel s v st2
    else ((st.lpush lk hs).llen lk, st.lpush lk hs)

/-- _counts_in_recent_count_index (lines 110-137): pop the head; a
missing or unparsable head ends the read at the current length; otherwise
evict while the parsed head is older than now - interval, push the last
(in-window) head back, and return the length. -/
def counts_in_recent_count_index (ck : String) (recent_count_index : ℕ)
    (now : Frac) (st : Store) : ℕ × Store :=
  let time_interval := RECENT_COUNTS_TIME_INTERVALS.getD recent_count_index 0
  let list_key := (recent_counts_keys ck).getD recent_count_index ""
  let some_time_ago := now - time_interval
  match st.lpop list_key with
  | (none, st2) => (st2.llen list_key, st2)
  | (some s, st2) =>
    match pyFloat s with
    | none => (st2.llen list_key, st2)
    | some v => recentReadLoop some_time_ago list_key (st2.llen list_key + 1) s v st2

def counts_in_last_five_seconds (ck : String) (now : Frac) (st : Store) : ℕ × Store :=
  counts_in_recent_count_index ck 0 now st

def counts_in_last_hour (ck : String) (now : Frac) (st : Store) : ℕ × Store :=
  counts_in_recent_count_index ck 1 now st

def counts_in_last_day (ck : String) (now : Frac) (st : Store) : ℕ × Store :=
  counts_in_recent_count_index ck 2 now st

def counts_in_last_week (ck : String) (now : Frac) (st : Store) : ℕ × Store :=
  counts_in_recent_count_index ck 3 now st

def counts_in_last_month (ck : String) (now : Frac) (st : Store) : ℕ × Store :=
  counts_in_recent_count_index ck 4 now st

/-- _periodic_counts_for_timestamp (lines 161-171): read each granularity's
bucket for the given timestamp, absent keys reported as '0'.  The method
only issues get calls, so the store comes back unchanged. -/
def periodic_counts_for_timestamp (ck : String) (seconds_since_epoch : Frac)
    (st : Store) : List String × Store :=
  ((List.range PERIODIC_COUNTS_SUFFIXES.length).map (fun i =>
      match st.get (periodicKeyAt ck i seconds_since_epoch) with
      | none => "0"
      | some value => value),
   st)

def counts_for_hour (ck : String) (t : Frac) (st : Store) : String × Store :=
  let p := periodic_counts_for_timestamp ck t st
  (p.1.getD 0 "", p.2)

def counts_for_day (ck : String) (t : Frac) (st : Store) : String × Store :=
  let p := periodic_counts_for_timestamp ck t st
  (p.1.getD 1 "", p.2)

def counts_for_week (ck : String) (t : Frac) (st : Store) : String × Store :=
  let p := periodic_counts_for_timestamp ck t st
  (p.1.getD 2 "", p.2)

def counts_for_month (ck : String) (t : Frac) (st : Store) : String × Store :=
  let p := periodic_counts_for_timestamp ck t st
  (p.1.getD 3 "", p.2)

/- ## Pure descriptions used by the theorems -/

/-- What one sliding-window read does to the stored sequence: drop the
stale prefix; a malformed entry is consumed and ends the scan. -/
def trimList (cutoff : Frac) : List String → List String
  | [] => []
  | s :: rest =>
    match pyFloat s with
    | none => rest
    | some v => if v < cutoff then trimList cutoff rest else s :: rest

/-- The store after n increment_counter calls, call j using time samples
(sched j).1 (the shared window sample) and (sched j).2 (the per-granularity
periodic samples). -/
def afterIncrements (ck : String) (sched : ℕ → Frac × (ℕ → Frac)) :
    ℕ → Store → Store
  | 0, st => st
  | n + 1, st =>
    (increment_counter ck (sched n).1 (sched n).2 (afterIncrements ck sched n st)).2

/-- State of the eviction loop described purely: the current head (s, with
parsed value v) followed by the stored tail l; if the head is still stale
the loop keeps trimming, otherwise it is pushed back. -/
def trimFrom (cutoff : Frac) (s : String) (v : Frac) (l : List String) : List String :=
  if v < cutoff then trimList cutoff l else s :: l

/- ## Store lemmas -/

theorem Store.find_erase (st : Store) (k q : String) :
    (st.erase k).find q = if q = k then none else st.find q := by
  induction st with
  | nil => simp [Store.erase, Store.find]
  | cons p rest ih =>
    obtain ⟨a, w⟩ := p
    by_cases hak : a = k <;> by_cases hqk : q = k <;> by_cases hqa : q = a <;>
      simp_all [Store.erase, Store.find]

theorem Store.find_upd (st : Store) (k : String) (v : Option RVal) (q : String) :
    (st.upd k v).find q = if q = k then v else st.find q := by
  cases v with
  | none => simp [Store.upd, Store.find_erase]
  | some w =>
    by_cases hq : q = k <;> simp [Store.upd, Store.find, Store.find_erase, hq]

/- ## String facts used to separate the program's keys -/

theorem data_append (s t : String) : (s ++ t).data = s.data ++ t.data := by
  cases s; cases t; rfl

theorem data_empty : ("" : String).data = [] := rfl

theorem str_ext {s t : String} (h : s.data = t.data) : s = t := by
  cases s; cases t; exact congrArg String.mk h

theorem str_append_assoc (a b c : String) : (a ++ b) ++ c = a ++ (b ++ c) :=
  str_ext (by simp [data_append])

theorem str_append_empty (s : String) : s ++ "" = s :=
  str_ext (by simp [data_append, data_empty])

theorem append_lit (ck a b c : String) (h : a.data ++ b.data = c.data) :
    (ck ++ a) ++ b = ck ++ c :=
  str_ext (by rw [data_append, data_append, data_append, List.append_assoc, h])

theorem self_ne_append (ck z : String) (hz : z.data ≠ []) : ck ≠ ck ++ z := by
  intro h
  have hd := congrArg String.data h
  rw [data_append] at hd
  have hl := congrArg List.length hd
  rw [List.length_append] at hl
  exact hz (List.length_eq_zero.mp (by omega))

theorem self_ne_append2 (ck a x : String) (ha : a.data ≠ []) : ck ≠ (ck ++ a) ++ x := by
  rw [str_append_assoc]
  apply self_ne_append
  rw [data_append]
  intro h
  exact ha (List.append_eq_nil.mp h).1

theorem keyNe (ck a b x y : String) (i : ℕ) (hia : i < a.data.length)
    (hib : i < b.data.length) (hne : a.data[i]? ≠ b.data[i]?) :
    (ck ++ a) ++ x ≠ (ck ++ b) ++ y := by
  intro h
  have hd := congrArg String.data h
  rw [data_append, data_append, data_append, data_append, List.append_assoc,
    List.append_assoc] at hd
  have h2 := List.append_cancel_left hd
  have h3 : (a.data ++ x.data)[i]? = a.data[i]? := by
    rw [List.getElem?_append, if_pos hia]
  have h4 : (b.data ++ y.data)[i]? = b.data[i]? := by
    rw [List.getElem?_append, if_pos hib]
  rw [h2] at h3
  exact hne (h3.symm.trans h4)

theorem keyNe1 (ck a b : String) (i : ℕ) (hia : i < a.data.length)
    (hib : i < b.data.length) (hne : a.data[i]? ≠ b.data[i]?) :
    ck ++ a ≠ ck ++ b := by
  have h := keyNe ck a b "" "" i hia hib hne
  rw [str_append_empty, str_append_empty] at h
  exact h

theorem keyNe2 (ck a b x : String) (i : ℕ) (hia : i < a.data.length)
    (hib : i < b.data.length) (hne : a.data[i]? ≠ b.data[i]?) :
    (ck ++ a) ++ x ≠ ck ++ b := by
  have h := keyNe ck a b x "" i hia hib hne
  rw [str_append_empty] at h
  exact h

/- ## Normal forms of the program's keys -/

theorem rkey0 (ck : String) : (recent_counts_keys ck).getD 0 "" = ck ++ ":last_five_seconds" := by
  show (ck ++ ":") ++ "last_five_seconds" = ck ++ ":last_five_seconds"
  exact append_lit ck ":" "last_five_seconds" ":last_five_seconds" (by decide)

theorem rkey1 (ck : String) : (recent_counts_keys ck).getD 1 "" = ck ++ ":last_hour" := by
  show (ck ++ ":") ++ "last_hour" = ck ++ ":last_hour"
  exact append_lit ck ":" "last_hour" ":last_hour" (by decide)

theorem rkey2 (ck : String) : (recent_counts_keys ck).getD 2 "" = ck ++ ":last_day" := by
  show (ck ++ ":") ++ "last_day" = ck ++ ":last_day"
  exact append_lit ck ":" "last_day" ":last_day" (by decide)

theorem rkey3 (ck : String) : (recent_counts_keys ck).getD 3 "" = ck ++ ":last_week" := by
  show (ck ++ ":") ++ "last_week" = ck ++ ":last_week"
  exact append_lit ck ":" "last_week" ":last_week" (by decide)

theorem rkey4 (ck : String) : (recent_counts_keys ck).getD 4 "" = ck ++ ":last_month" := by
  show (ck ++ ":") ++ "last_month" = ck ++ ":last_month"
  exact append_lit ck ":" "last_month" ":last_month" (by decide)

theorem recent_keys_eq (ck : String) :
    recent_counts_keys ck =
      [ck ++ ":last_five_seconds", ck ++ ":last_hour", ck ++ ":last_day",
       ck ++ ":last_week", ck ++ ":last_month"] := by
  show [(ck ++ ":") ++ "last_five_seconds", (ck ++ ":") ++ "last_hour",
      (ck ++ ":") ++ "last_day", (ck ++ ":") ++ "last_week",
      (ck ++ ":") ++ "last_month"] = _
  rw [append_lit ck ":" "last_five_seconds" ":last_five_seconds" (by decide),
    append_lit ck ":" "last_hour" ":last_hour" (by decide),
    append_lit ck ":" "last_day" ":last_day" (by decide),
    append_lit ck ":" "last_week" ":last_week" (by decide),
    append_lit ck ":" "last_month" ":last_month" (by decide)]

theorem pfx0 (ck : String) :
    (periodic_counts_key_prefixes ck).getD 0 "" = ck ++ ":historical_hour:" := by
  show ((ck ++ ":") ++ "historical_hour") ++ ":" = ck ++ ":historical_hour:"
  rw [append_lit ck ":" "historical_hour" ":historical_hour" (by decide)]
  exact append_lit ck ":historical_hour" ":" ":historical_hour:" (by decide)

theorem pfx1 (ck : String) :
    (periodic_counts_key_prefixes ck).getD 1 "" = ck ++ ":historical_day:" := by
  show ((ck ++ ":") ++ "historical_day") ++ ":" = ck ++ ":historical_day:"
  rw [append_lit ck ":" "historical_day" ":historical_day" (by decide)]
  exact append_lit ck ":historical_day" ":" ":historical_day:" (by decide)

theorem pfx2 (ck : String) :
    (periodic_counts_key_prefixes ck).getD 2 "" = ck ++ ":historical_week:" := by
  show ((ck ++ ":") ++ "historical_week") ++ ":" = ck ++ ":historical_week:"
  rw [append_lit ck ":" "historical_week" ":historical_week" (by decide)]
  exact append_lit ck ":historical_week" ":" ":historical_week:" (by decide)

theorem pfx3 (ck : String) :
    (periodic_counts_key_prefixes ck).getD 3 "" = ck ++ ":historical_month:" := by
  show ((ck ++ ":") ++ "historical_month") ++ ":" = ck ++ ":historical_month:"
  rw [append_lit ck ":" "historical_month" ":historical_month" (by decide)]
  exact append_lit ck ":historical_month" ":" ":historical_month:" (by decide)

theorem lkey0 (ck : String) :
    (periodic_list_keys ck).getD 0 "" = ck ++ ":historical_hours_list" := by
  show (ck ++ ":") ++ "historical_hours_list" = ck ++ ":historical_hours_list"
  exact append_lit ck ":" "historical_hours_list" ":historical_hours_list" (by decide)

theorem lkey1 (ck : String) :
    (periodic_list_keys ck).getD 1 "" = ck ++ ":historical_days_list" := by
  show (ck ++ ":") ++ "historical_days_list" = ck ++ ":historical_days_list"
  exact append_lit ck ":" "historical_days_list" ":historical_days_list" (by decide)

theorem lkey2 (ck : String) :
    (periodic_list_keys ck).getD 2 "" = ck ++ ":historical_weeks_list" := by
  show (ck ++ ":") ++ "historical_weeks_list" = ck ++ ":historical_weeks_list"
  exact append_lit ck ":" "historical_weeks_list" ":historical_weeks_list" (by decide)

theorem lkey3 (ck : String) :
    (periodic_list_keys ck).getD 3 "" = ck ++ ":historical_months_list" := by
  show (ck ++ ":") ++ "historical_months_list" = ck ++ ":historical_months_list"
  exact append_lit ck ":" "historical_months_list" ":historical_months_list" (by decide)

theorem pKey0 (ck : String) (t : Frac) :
    periodicKeyAt ck 0 t =
      (ck ++ ":historical_hour:") ++ timestamp_for_format t "%Y%m%d%H" := by
  show (periodic_counts_key_prefixes ck).getD 0 "" ++
      timestamp_for_format t "%Y%m%d%H" = _
  rw [pfx0]

theorem pKey1 (ck : String) (t : Frac) :
    periodicKeyAt ck 1 t =
      (ck ++ ":historical_day:") ++ timestamp_for_format t "%Y%m%d" := by
  show (periodic_counts_key_prefixes ck).getD 1 "" ++
      timestamp_for_format t "%Y%m%d" = _
  rw [pfx1]

theorem pKey2 (ck : String) (t : Frac) :
    periodicKeyAt ck 2 t =
      (ck ++ ":historical_week:") ++ timestamp_for_format t "%Y%m%d" := by
  show (periodic_counts_key_prefixes ck).getD 2 "" ++
      timestamp_for_format t "%Y%m%d" = _
  rw [pfx2]

theorem pKey3 (ck : String) (t : Frac) :
    periodicKeyAt ck 3 t =
      (ck ++ ":historical_month:") ++ timestamp_for_format t "%Y%m" := by
  show (periodic_counts_key_prefixes ck).getD 3 "" ++
      timestamp_for_format t "%Y%m" = _
  rw [pfx3]

/- ## Derived store facts -/

theorem Store.find_setStr (st : Store) (k v q : String) :
    (st.setStr k v).find q = if q = k then some (RVal.str v) else st.find q := by
  simp [Store.setStr, Store.find_upd]

theorem Store.find_del (st : Store) (k q : String) :
    (st.del k).find q = if q = k then none else st.find q := by
  simp [Store.del, Store.find_upd]

theorem Store.find_rpush (st : Store) (k v : String) (q : String) :
    (st.rpush k v).find q =
      if q = k then some (RVal.list (st.getList k ++ [v])) else st.find q := by
  simp [Store.rpush, Store.find_upd]

theorem Store.find_lpush (st : Store) (k v : String) (q : String) :
    (st.lpush k v).find q =
      if q = k then some (RVal.list (v :: st.getList k)) else st.find q := by
  simp [Store.lpush, Store.find_upd]

theorem Store.lpop_fst (st : Store) (k : String) :
    (st.lpop k).1 = (st.getList k).head? := by
  unfold Store.lpop
  cases st.getList k <;> simp

theorem Store.lpop_getList_self (st : Store) (k : String) :
    ((st.lpop k).2).getList k = (st.getList k).tail := by
  unfold Store.lpop
  cases hl : st.getList k with
  | nil => simp [hl]
  | cons x xs =>
    cases xs with
    | nil => simp [Store.getList, Store.find_del]
    | cons y ys => simp [Store.getList, Store.find_upd]

theorem Store.lpop_find_ne (st : Store) (k q : String) (hq : q ≠ k) :
    ((st.lpop k).2).find q = st.find q := by
  unfold Store.lpop
  cases hl : st.getList k with
  | nil => simp
  | cons x xs =>
    cases xs with
    | nil => simp [Store.find_del, hq]
    | cons y ys => simp [Store.find_upd, hq]

theorem Store.lpop_find_self (st : Store) (k : String) :
    ((st.lpop k).2).find k =
      match st.getList k with
      | [] => st.find k
      | [_] => none
      | _ :: xs => some (RVal.list xs) := by
  unfold Store.lpop
  cases hl : st.getList k with
  | nil => simp
  | cons x xs =>
    cases xs with
    | nil => simp [Store.find_del]
    | cons y ys => simp [Store.find_upd]

/- ## Decimal round trip -/

theorem digitChar_isDigit (d : ℕ) : (digitChar d).isDigit = true := by
  unfold digitChar
  split <;> decide

theorem digitVal_digitChar (d : ℕ) (h : d < 10) : digitVal (digitChar d) = d := by
  interval_cases d <;> decide

theorem natDigitsAux_eq (fuel : ℕ) :
    ∀ (n : ℕ) (acc : List Char), n < fuel →
      natDigitsAux fuel n acc = natDigitsW n ++ acc := by
  induction fuel with
  | zero => intro n acc h; omega
  | succ f ih =>
    intro n acc h
    by_cases h10 : n < 10
    · rw [natDigitsAux, if_pos h10, natDigitsW]
      simp [h10]
    · have hdiv : n / 10 < f := by
        have h1 : n / 10 < n := Nat.div_lt_self (by omega) (by omega)
        omega
      rw [natDigitsAux, if_neg h10, ih _ _ hdiv]
      conv_rhs => rw [natDigitsW]
      simp [h10, List.append_assoc]

theorem natDigits_eq (n : ℕ) : natDigits n = natDigitsW n := by
  have h := natDigitsAux_eq (n + 1) n [] (by omega)
  simpa [natDigits] using h

theorem natDigitsW_ne_nil (n : ℕ) : natDigitsW n ≠ [] := by
  rw [natDigitsW]
  split <;> simp

theorem natDigitsW_digits (n : ℕ) : ∀ c ∈ natDigitsW n, c.isDigit = true := by
  induction n using Nat.strong_induction_on with
  | _ n ih =>
    rw [natDigitsW]
    split
    · simp [digitChar_isDigit]
    · intro c hc
      rw [List.mem_append] at hc
      rcases hc with hc | hc
      · exact ih (n / 10) (Nat.div_lt_self (by omega) (by omega)) c hc
      · simp at hc
        rw [hc]
        exact digitChar_isDigit _

theorem foldl_natDigitsW (n : ℕ) :
    ∀ A : ℕ, (natDigitsW n).foldl (fun a c => a * 10 + digitVal c) A =
      A * 10 ^ (natDigitsW n).length + n := by
  induction n using Nat.strong_induction_on with
  | _ n ih =>
    intro A
    rw [natDigitsW]
    by_cases h10 : n < 10
    · rw [dif_pos h10]
      simp [digitVal_digitChar _ h10]
    · rw [dif_neg h10, List.foldl_append,
        ih (n / 10) (Nat.div_lt_self (by omega) (by omega)) A]
      have hmod : digitVal (digitChar (n % 10)) = n % 10 :=
        digitVal_digitChar _ (Nat.mod_lt _ (by omega))
      simp [hmod, List.length_append, pow_succ]
      have hdm := Nat.div_add_mod n 10
      generalize (10 : ℕ) ^ (natDigitsW (n / 10)).length = K
      ring_nf
      omega

theorem digitsVal_natDigitsW (n : ℕ) : digitsVal (natDigitsW n) = n := by
  have h := foldl_natDigitsW n 0
  simpa [digitsVal] using h

theorem pyInt_mk_digits (cs : List Char) (h1 : cs ≠ [])
    (h2 : ∀ c ∈ cs, c.isDigit = true) :
    pyInt (String.mk cs) = some ((digitsVal cs : ℤ)) := by
  cases cs with
  | nil => exact absurd rfl h1
  | cons c tl =>
    have hc : c.isDigit = true := h2 c (by simp)
    have hcne : c ≠ '-' := by intro hh; rw [hh] at hc; exact absurd hc (by decide)
    have hcp : c ≠ '+' := by intro hh; rw [hh] at hc; exact absurd hc (by decide)
    show (if c = '-' then _ else if c = '+' then _
      else if isDigits (c :: tl) then some ((digitsVal (c :: tl) : ℤ)) else none) = _
    rw [if_neg hcne, if_neg hcp, if_pos]
    unfold isDigits
    simp
    exact ⟨hc, fun x hx => h2 x (List.mem_cons_of_mem c hx)⟩

theorem pyInt_natRepr (n : ℕ) : pyInt (natRepr n) = some ((n : ℤ)) := by
  calc pyInt (natRepr n) = pyInt (String.mk (natDigitsW n)) := by
        rw [natRepr, natDigits_eq]
    _ = some ((digitsVal (natDigitsW n) : ℤ)) :=
        pyInt_mk_digits _ (natDigitsW_ne_nil n) (natDigitsW_digits n)
    _ = some ((n : ℤ)) := by rw [digitsVal_natDigitsW]

theorem intRepr_ofNat (n : ℕ) : intRepr ((n : ℤ)) = natRepr n := by
  unfold intRepr
  rw [if_neg (by omega)]
  simp [natRepr]

theorem Store.incr_of_get (st : Store) (k : String) (n : ℕ)
    (h : st.get k = some (natRepr n)) :
    (st.incr k).1 = ((n : ℤ) + 1) ∧ (st.incr k).2 = st.setStr k (natRepr (n + 1)) := by
  unfold Store.incr
  rw [h]
  simp only [pyInt_natRepr, Option.getD_some]
  constructor
  · trivial
  · have h2 : ((n : ℤ) + 1) = (((n + 1 : ℕ) : ℤ)) := by push_cast; ring
    rw [h2, intRepr_ofNat]

/- ## The sliding-window read, described purely -/

theorem Store.getList_lpush_self (st : Store) (k v : String) :
    (st.lpush k v).getList k = v :: st.getList k := by
  simp [Store.getList, Store.find_lpush]

theorem Store.getList_rpush_self (st : Store) (k v : String) :
    (st.rpush k v).getList k = st.getList k ++ [v] := by
  simp [Store.getList, Store.find_rpush]

theorem Store.getList_congr (st1 st2 : Store) (q : String)
    (h : st1.find q = st2.find q) : st1.getList q = st2.getList q := by
  simp [Store.getList, h]

theorem trimList_cons_parse (cutoff : Frac) (s : String) (v : Frac) (l : List String)
    (h : pyFloat s = some v) :
    trimList cutoff (s :: l) = if v < cutoff then trimList cutoff l else s :: l := by
  simp [trimList, h]

theorem trimList_cons_bad (cutoff : Frac) (s : String) (l : List String)
    (h : pyFloat s = none) : trimList cutoff (s :: l) = l := by
  simp [trimList, h]

theorem recentReadLoop_spec (cutoff : Frac) (lk : String) (fuel : ℕ) :
    ∀ (st : Store) (s : String) (v : Frac),
      (st.getList lk).length ≤ fuel →
      (recentReadLoop cutoff lk fuel s v st).1 =
          (trimFrom cutoff s v (st.getList lk)).length ∧
      ((recentReadLoop cutoff lk fuel s v st).2).getList lk =
          trimFrom cutoff s v (st.getList lk) ∧
      ∀ q, q ≠ lk → ((recentReadLoop cutoff lk fuel s v st).2).find q = st.find q := by
  induction fuel with
  | zero =>
    intro st s v hlen
    have hnil : st.getList lk = [] := List.length_eq_zero.mp (by omega)
    by_cases hv : v < cutoff
    · rw [recentReadLoop, if_pos hv]
      refine ⟨?_, ?_, ?_⟩
      · simp [Store.llen, hnil, trimFrom, hv, trimList]
      · simp [hnil, trimFrom, hv, trimList]
      · intro q hq; rfl
    · rw [recentReadLoop, if_neg hv]
      refine ⟨?_, ?_, ?_⟩
      · simp [Store.llen, Store.getList_lpush_self, hnil, trimFrom, hv]
      · simp [Store.getList_lpush_self, hnil, trimFrom, hv]
      · intro q hq; simp [Store.find_lpush, hq]
  | succ f ih =>
    intro st s v hlen
    by_cases hv : v < cutoff
    · rw [recentReadLoop, if_pos hv]
      cases hp : st.lpop lk with
      | mk a st2 =>
        have ha : a = (st.getList lk).head? := by
          have h1 := Store.lpop_fst st lk
          rw [hp] at h1
          exact h1
        have hgl : st2.getList lk = (st.getList lk).tail := by
          have h1 := Store.lpop_getList_self st lk
          rw [hp] at h1
          exact h1
        have hfr : ∀ q, q ≠ lk → st2.find q = st.find q := by
          intro q hq
          have h1 := Store.lpop_find_ne st lk q hq
          rw [hp] at h1
          exact h1
        cases hl : st.getList lk with
        | nil =>
          rw [hl] at ha hgl
          simp only [List.head?] at ha
          subst ha
          have hst2 : st2 = st := by
            have h2 : st.lpop lk = (none, st) := by
              unfold Store.lpop
              rw [hl]
            rw [hp] at h2
            exact congrArg Prod.snd h2
          subst hst2
          refine ⟨?_, ?_, ?_⟩
          · simp [Store.llen, hl, trimFrom, hv, trimList]
          · simp [hl, trimFrom, hv, trimList]
          · intro q hq; rfl
        | cons x xs =>
          rw [hl] at ha hgl
          simp only [List.head?] at ha
          simp only [List.tail_cons] at hgl
          subst ha
          cases hx : pyFloat x with
          | none =>
            refine ⟨?_, ?_, ?_⟩
            · simp [Store.llen, hgl, trimFrom, hv, hl, hx, trimList_cons_bad _ _ _ hx]
            · simp [hgl, trimFrom, hv, hl, hx, trimList_cons_bad _ _ _ hx]
            · simp only [hx]
              exact hfr
          | some w =>
            have hlen2 : (st2.getList lk).length ≤ f := by
              rw [hgl]
              have h3 : (st.getList lk).length = xs.length + 1 := by rw [hl]; rfl
              omega
            obtain ⟨ih1, ih2, ih3⟩ := ih st2 x w hlen2
            have heq : trimFrom cutoff s v (x :: xs) = trimFrom cutoff x w xs := by
              rw [trimFrom, if_pos hv, trimList_cons_parse _ _ _ _ hx]
              rfl
            rw [hgl] at ih1 ih2
            simp only [hx]
            refine ⟨?_, ?_, ?_⟩
            · rw [heq]
              exact ih1
            · rw [heq]
              exact ih2
            · intro q hq
              rw [ih3 q hq, hfr q hq]
    · rw [recentReadLoop, if_neg hv]
      refine ⟨?_, ?_, ?_⟩
      · simp [Store.llen, Store.getList_lpush_self, trimFrom, hv]
      · simp [Store.getList_lpush_self, trimFrom, hv]
      · intro q hq; simp [Store.find_lpush, hq]

/-- The whole sliding-window read, described purely: the returned count is
the length of the trimmed sequence, the stored sequence becomes the trimmed
sequence, and no other key changes. -/
theorem counts_spec (ck : String) (i : ℕ) (now : Frac) (st : Store) :
    (counts_in_recent_count_index ck i now st).1 =
        (trimList (now - RECENT_COUNTS_TIME_INTERVALS.getD i 0)
          (st.getList ((recent_counts_keys ck).getD i ""))).length ∧
    ((counts_in_recent_count_index ck i now st).2).getList
          ((recent_counts_keys ck).getD i "") =
        trimList (now - RECENT_COUNTS_TIME_INTERVALS.getD i 0)
          (st.getList ((recent_counts_keys ck).getD i "")) ∧
    (∀ q, q ≠ (recent_counts_keys ck).getD i "" →
      ((counts_in_recent_count_index ck i now st).2).find q = st.find q) := by
  simp only [counts_in_recent_count_index]
  cases hp : st.lpop ((recent_counts_keys ck).getD i "") with
  | mk a st2 =>
    have ha : a = (st.getList ((recent_counts_keys ck).getD i "")).head? := by
      have h1 := Store.lpop_fst st ((recent_counts_keys ck).getD i "")
      rw [hp] at h1
      exact h1
    have hgl : st2.getList ((recent_counts_keys ck).getD i "") =
        (st.getList ((recent_counts_keys ck).getD i "")).tail := by
      have h1 := Store.lpop_getList_self st ((recent_counts_keys ck).getD i "")
      rw [hp] at h1
      exact h1
    have hfr : ∀ q, q ≠ (recent_counts_keys ck).getD i "" → st2.find q = st.find q := by
      intro q hq
      have h1 := Store.lpop_find_ne st ((recent_counts_keys ck).getD i "") q hq
      rw [hp] at h1
      exact h1
    cases hl : st.getList ((recent_counts_keys ck).getD i "") with
    | nil =>
      rw [hl] at ha hgl
      simp only [List.head?] at ha
      subst ha
      have hst2 : st2 = st := by
        have h2 : st.lpop ((recent_counts_keys ck).getD i "") = (none, st) := by
          unfold Store.lpop
          rw [hl]
        rw [hp] at h2
        exact congrArg Prod.snd h2
      subst hst2
      refine ⟨?_, ?_, ?_⟩
      · simp only [Store.llen, hl, trimList, List.length_nil]
      · simp only [hl, trimList]
      · intro q hq; rfl
    | cons x xs =>
      rw [hl] at ha hgl
      simp only [List.head?] at ha
      simp only [List.tail_cons] at hgl
      subst ha
      cases hx : pyFloat x with
      | none =>
        refine ⟨?_, ?_, ?_⟩
        · simp only [hx, Store.llen, hgl, trimList_cons_bad _ _ _ hx]
        · simp only [hx, hgl, trimList_cons_bad _ _ _ hx]
        · simp only [hx]
          exact hfr
      | some v =>
        have hlen2 : (st2.getList ((recent_counts_keys ck).getD i "")).length ≤
            st2.llen ((recent_counts_keys ck).getD i "") + 1 := by
          simp [Store.llen]
        obtain ⟨ih1, ih2, ih3⟩ :=
          recentReadLoop_spec (now - RECENT_COUNTS_TIME_INTERVALS.getD i 0)
            ((recent_counts_keys ck).getD i "")
            (st2.llen ((recent_counts_keys ck).getD i "") + 1) st2 x v hlen2
        rw [hgl] at ih1 ih2
        have heq : trimFrom (now - RECENT_COUNTS_TIME_INTERVALS.getD i 0) x v xs =
            trimList (now - RECENT_COUNTS_TIME_INTERVALS.getD i 0) (x :: xs) := by
          rw [trimList_cons_parse _ _ _ _ hx]
          rfl
        rw [heq] at ih1 ih2
        simp only [hx]
        refine ⟨?_, ?_, ?_⟩
        · exact ih1
        · exact ih2
        · intro q hq
          rw [ih3 q hq, hfr q hq]

/- ## Properties of the trimming function -/

theorem Frac.not_le (a b : Frac) : ¬ a ≤ b ↔ b < a := by
  rw [Frac.le_def, Frac.lt_def]; omega

theorem pyFloatCore_den_pos (cs : List Char) (v : Frac) (h : pyFloatCore cs = some v) :
    0 < v.den := by
  unfold pyFloatCore at h
  split at h
  · split_ifs at h
    cases h
    exact Nat.one_pos
  · split_ifs at h
    cases h
    exact pow_pos (by omega) _
  · cases h

theorem pyFloat_den_pos (s : String) (v : Frac) (h : pyFloat s = some v) :
    0 < v.den := by
  unfold pyFloat at h
  split at h
  · cases h
  · split_ifs at h
    · cases hc : pyFloatCore _ with
      | none => rw [hc] at h; cases h
      | some w =>
        rw [hc] at h
        simp only [Option.map_some'] at h
        cases h
        exact pyFloatCore_den_pos _ w hc
    · exact pyFloatCore_den_pos _ _ h
    · exact pyFloatCore_den_pos _ _ h

theorem trimList_subset (c : Frac) (l : List String) :
    ∀ s ∈ trimList c l, s ∈ l := by
  induction l with
  | nil => simp [trimList]
  | cons x xs ih =>
    intro s hs
    cases hx : pyFloat x with
    | none =>
      rw [trimList_cons_bad _ _ _ hx] at hs
      exact List.mem_cons_of_mem _ hs
    | some v =>
      rw [trimList_cons_parse _ _ _ _ hx] at hs
      split_ifs at hs with hv
      · exact List.mem_cons_of_mem _ (ih s hs)
      · exact hs

theorem trimList_idem (c : Frac) (l : List String)
    (hWF : ∀ s ∈ l, (pyFloat s).isSome = true) :
    trimList c (trimList c l) = trimList c l := by
  induction l with
  | nil => simp [trimList]
  | cons x xs ih =>
    obtain ⟨v, hx⟩ : ∃ v, pyFloat x = some v :=
      Option.isSome_iff_exists.mp (hWF x (by simp))
    rw [trimList_cons_parse _ _ _ _ hx]
    split_ifs with hv
    · exact ih (fun s hs => hWF s (List.mem_cons_of_mem _ hs))
    · rw [trimList_cons_parse _ _ _ _ hx, if_neg hv]

theorem trimList_all_stale (c : Frac) (l : List String)
    (h : ∀ s ∈ l, ∃ v, pyFloat s = some v ∧ v < c) :
    trimList c l = [] := by
  induction l with
  | nil => rfl
  | cons x xs ih =>
    obtain ⟨v, hx, hv⟩ := h x (by simp)
    rw [trimList_cons_parse _ _ _ _ hx, if_pos hv]
    exact ih (fun s hs => h s (List.mem_cons_of_mem _ hs))

theorem trimList_bad_entry (c : Frac) (pre rest : List String) (bad : String)
    (hpre : ∀ s ∈ pre, ∃ v, pyFloat s = some v ∧ v < c)
    (hbad : pyFloat bad = none) :
    trimList c (pre ++ bad :: rest) = rest := by
  induction pre with
  | nil =>
    simp only [List.nil_append]
    exact trimList_cons_bad _ _ _ hbad
  | cons x xs ih =>
    obtain ⟨v, hx, hv⟩ := hpre x (by simp)
    rw [List.cons_append, trimList_cons_parse _ _ _ _ hx, if_pos hv]
    exact ih (fun s hs => hpre s (List.mem_cons_of_mem _ hs))

theorem trimList_filter (c : Frac) (l : List String)
    (hWF : ∀ s ∈ l, (pyFloat s).isSome = true)
    (hSorted : l.Pairwise (fun a b =>
      (pyFloat a).getD (Frac.mk 0 1) ≤ (pyFloat b).getD (Frac.mk 0 1))) :
    trimList c l = l.filter (fun s => decide (c ≤ (pyFloat s).getD (Frac.mk 0 1))) := by
  induction l with
  | nil => rfl
  | cons x xs ih =>
    obtain ⟨v, hx⟩ : ∃ v, pyFloat x = some v :=
      Option.isSome_iff_exists.mp (hWF x (by simp))
    rw [List.pairwise_cons] at hSorted
    obtain ⟨hhead, htail⟩ := hSorted
    rw [trimList_cons_parse _ _ _ _ hx]
    by_cases hv : v < c
    · have hnc : ¬ (c ≤ (pyFloat x).getD (Frac.mk 0 1)) := by
        rw [hx]
        simp only [Option.getD_some]
        rw [Frac.not_le]
        exact hv
      rw [if_pos hv, List.filter_cons, if_neg (by simpa using hnc)]
      exact ih (fun s hs => hWF s (List.mem_cons_of_mem _ hs)) htail
    · have hcv : c ≤ v := (Frac.not_lt v c).mp hv
      have hc2 : c ≤ (pyFloat x).getD (Frac.mk 0 1) := by
        rw [hx]; simpa using hcv
      have hrest : xs.filter (fun s => decide (c ≤ (pyFloat s).getD (Frac.mk 0 1))) = xs := by
        rw [List.filter_eq_self]
        intro s hs
        have h1 := hhead s hs
        rw [hx] at h1
        simp only [Option.getD_some] at h1
        have h2 : c ≤ (pyFloat s).getD (Frac.mk 0 1) :=
          Frac.le_trans c v _ (pyFloat_den_pos x v hx) hcv h1
        simpa using h2
      rw [if_neg hv, List.filter_cons, if_pos (by simpa using hc2), hrest]

/- ## Claims about the read paths -/

/-- C4: for every sliding window, a read over well-formed timestamps stored
in non-decreasing order leaves exactly the original timestamps that are at
least now minus the window span, in their original order, and returns the
length of that trimmed sequence. -/
theorem claim_C4 (ck : String) (i : ℕ) (hi : i < 5) (now : Frac) (st : Store)
    (l : List String)
    (hl : st.getList ((recent_counts_keys ck).getD i "") = l)
    (hWF : ∀ s ∈ l, (pyFloat s).isSome = true)
    (hSorted : l.Pairwise (fun a b =>
      (pyFloat a).getD (Frac.mk 0 1) ≤ (pyFloat b).getD (Frac.mk 0 1))) :
    ((counts_in_recent_count_index ck i now st).2).getList
        ((recent_counts_keys ck).getD i "") =
      l.filter (fun s => decide
        (now - RECENT_COUNTS_TIME_INTERVALS.getD i 0 ≤ (pyFloat s).getD (Frac.mk 0 1))) ∧
    (counts_in_recent_count_index ck i now st).1 =
      (l.filter (fun s => decide
        (now - RECENT_COUNTS_TIME_INTERVALS.getD i 0 ≤ (pyFloat s).getD (Frac.mk 0 1)))).length := by
  obtain ⟨h1, h2, _⟩ := counts_spec ck i now st
  rw [hl] at h1 h2
  rw [trimList_filter _ _ hWF hSorted] at h1 h2
  exact ⟨h2, h1⟩

theorem claim_C4_witness :
    (1 : ℕ) < 5 ∧
    (((counts_in_recent_count_index "RedisCounter:c" 1 (5000 : Frac)
        (Store.rpush (Store.rpush emptyStore "RedisCounter:c:last_hour" "1000")
          "RedisCounter:c:last_hour" "2000")).2).getList
        ((recent_counts_keys "RedisCounter:c").getD 1 "") =
      (["1000", "2000"]).filter (fun s => decide
        ((5000 : Frac) - RECENT_COUNTS_TIME_INTERVALS.getD 1 0 ≤
          (pyFloat s).getD (Frac.mk 0 1))) ∧
    (counts_in_recent_count_index "RedisCounter:c" 1 (5000 : Frac)
        (Store.rpush (Store.rpush emptyStore "RedisCounter:c:last_hour" "1000")
          "RedisCounter:c:last_hour" "2000")).1 =
      ((["1000", "2000"]).filter (fun s => decide
        ((5000 : Frac) - RECENT_COUNTS_TIME_INTERVALS.getD 1 0 ≤
          (pyFloat s).getD (Frac.mk 0 1)))).length) :=
  ⟨by decide,
   claim_C4 "RedisCounter:c" 1 (by decide) (5000 : Frac)
     (Store.rpush (Store.rpush emptyStore "RedisCounter:c:last_hour" "1000")
       "RedisCounter:c:last_hour" "2000")
     ["1000", "2000"] (by decide) (by decide) (by decide)⟩

/-- C8: for every sliding window, an empty or fully stale stored sequence
answers 0. -/
theorem claim_C8 (ck : String) (i : ℕ) (hi : i < 5) (now : Frac) (st : Store)
    (hstale : ∀ s ∈ st.getList ((recent_counts_keys ck).getD i ""),
      ∃ v, pyFloat s = some v ∧ v < now - RECENT_COUNTS_TIME_INTERVALS.getD i 0) :
    (counts_in_recent_count_index ck i now st).1 = 0 := by
  obtain ⟨h1, _, _⟩ := counts_spec ck i now st
  rw [trimList_all_stale _ _ hstale] at h1
  exact h1

theorem claim_C8_witness :
    (0 : ℕ) < 5 ∧
    (counts_in_recent_count_index "RedisCounter:c" 0 (5000 : Frac)
      (Store.rpush emptyStore "RedisCounter:c:last_five_seconds" "1")).1 = 0 :=
  ⟨by decide,
   claim_C8 "RedisCounter:c" 0 (by decide) (5000 : Frac)
     (Store.rpush emptyStore "RedisCounter:c:last_five_seconds" "1") (by decide)⟩

/-- C9: a sliding-window read that reaches an unparsable entry pops it and
never pushes it back: the malformed entry is permanently removed, the
entries behind it are left in place uninspected, and the read returns their
number. -/
theorem claim_C9 (ck : String) (i : ℕ) (hi : i < 5) (now : Frac) (st : Store)
    (pre rest : List String) (bad : String)
    (hl : st.getList ((recent_counts_keys ck).getD i "") = pre ++ bad :: rest)
    (hpre : ∀ s ∈ pre,
      ∃ v, pyFloat s = some v ∧ v < now - RECENT_COUNTS_TIME_INTERVALS.getD i 0)
    (hbad : pyFloat bad = none) :
    ((counts_in_recent_count_index ck i now st).2).getList
        ((recent_counts_keys ck).getD i "") = rest ∧
    (counts_in_recent_count_index ck i now st).1 = rest.length := by
  obtain ⟨h1, h2, _⟩ := counts_spec ck i now st
  rw [hl, trimList_bad_entry _ _ _ _ hpre hbad] at h1 h2
  exact ⟨h2, h1⟩

theorem claim_C9_witness :
    (1 : ℕ) < 5 ∧
    (((counts_in_recent_count_index "RedisCounter:c" 1 (5000 : Frac)
        (List.foldl (fun s v => Store.rpush s "RedisCounter:c:last_hour" v)
          emptyStore ["1000", "oops", "7", "zz"])).2).getList
        ((recent_counts_keys "RedisCounter:c").getD 1 "") = ["7", "zz"] ∧
    (counts_in_recent_count_index "RedisCounter:c" 1 (5000 : Frac)
        (List.foldl (fun s v => Store.rpush s "RedisCounter:c:last_hour" v)
          emptyStore ["1000", "oops", "7", "zz"])).1 = (["7", "zz"]).length) :=
  ⟨by decide,
   claim_C9 "RedisCounter:c" 1 (by decide) (5000 : Frac)
     (List.foldl (fun s v => Store.rpush s "RedisCounter:c:last_hour" v)
       emptyStore ["1000", "oops", "7", "zz"])
     ["1000"] ["7", "zz"] "oops" (by decide) (by decide) (by decide)⟩

/-- C5: repeated reads with the same timestamp and no intervening
increments agree: each periodic counts_for_* query twice in a row returns
the same value (the query only issues gets), and a repeated sliding-window
read with the same now returns the same count as the first. -/
theorem claim_C5 (ck : String) (t now : Frac) (i : ℕ) (st : Store)
    (hWF : ∀ s ∈ st.getList ((recent_counts_keys ck).getD i ""),
      (pyFloat s).isSome = true) :
    ((counts_for_hour ck t ((counts_for_hour ck t st).2)).1 =
        (counts_for_hour ck t st).1 ∧
      (counts_for_day ck t ((counts_for_day ck t st).2)).1 =
        (counts_for_day ck t st).1 ∧
      (counts_for_week ck t ((counts_for_week ck t st).2)).1 =
        (counts_for_week ck t st).1 ∧
      (counts_for_month ck t ((counts_for_month ck t st).2)).1 =
        (counts_for_month ck t st).1) ∧
    (counts_in_recent_count_index ck i now
        ((counts_in_recent_count_index ck i now st).2)).1 =
      (counts_in_recent_count_index ck i now st).1 := by
  constructor
  · exact ⟨rfl, rfl, rfl, rfl⟩
  · obtain ⟨h1, h2, _⟩ := counts_spec ck i now st
    obtain ⟨h1', _, _⟩ :=
      counts_spec ck i now ((counts_in_recent_count_index ck i now st).2)
    rw [h1', h2, trimList_idem _ _ hWF, h1]

theorem claim_C5_witness :
    (∀ s ∈ (Store.rpush emptyStore "RedisCounter:c:last_hour" "1000").getList
        ((recent_counts_keys "RedisCounter:c").getD 1 ""), (pyFloat s).isSome = true) ∧
    (counts_in_recent_count_index "RedisCounter:c" 1 (5000 : Frac)
        ((counts_in_recent_count_index "RedisCounter:c" 1 (5000 : Frac)
          (Store.rpush emptyStore "RedisCounter:c:last_hour" "1000")).2)).1 =
      (counts_in_recent_count_index "RedisCounter:c" 1 (5000 : Frac)
        (Store.rpush emptyStore "RedisCounter:c:last_hour" "1000")).1 :=
  ⟨by decide,
   (claim_C5 "RedisCounter:c" (0 : Frac) (5000 : Frac) 1
     (Store.rpush emptyStore "RedisCounter:c:last_hour" "1000") (by decide)).2⟩

/-- C7: each counts_for_* query derives the bucket key for its granularity
from the given timestamp and reads it; an absent bucket key is reported as
the string 0, never an error (the read is a total function of the store). -/
theorem claim_C7 (ck : String) (t : Frac) (st : Store) :
    (counts_for_hour ck t st).1 = (st.get (periodicKeyAt ck 0 t)).getD "0" ∧
    (counts_for_day ck t st).1 = (st.get (periodicKeyAt ck 1 t)).getD "0" ∧
    (counts_for_week ck t st).1 = (st.get (periodicKeyAt ck 2 t)).getD "0" ∧
    (counts_for_month ck t st).1 = (st.get (periodicKeyAt ck 3 t)).getD "0" := by
  refine ⟨?_, ?_, ?_, ?_⟩
  · cases h : st.get (periodicKeyAt ck 0 t) <;>
      simp [counts_for_hour, periodic_counts_for_timestamp,
        show List.range PERIODIC_COUNTS_SUFFIXES.length = [0, 1, 2, 3] from rfl, h]
  · cases h : st.get (periodicKeyAt ck 1 t) <;>
      simp [counts_for_day, periodic_counts_for_timestamp,
        show List.range PERIODIC_COUNTS_SUFFIXES.length = [0, 1, 2, 3] from rfl, h]
  · cases h : st.get (periodicKeyAt ck 2 t) <;>
      simp [counts_for_week, periodic_counts_for_timestamp,
        show List.range PERIODIC_COUNTS_SUFFIXES.length = [0, 1, 2, 3] from rfl, h]
  · cases h : st.get (periodicKeyAt ck 3 t) <;>
      simp [counts_for_month, periodic_counts_for_timestamp,
        show List.range PERIODIC_COUNTS_SUFFIXES.length = [0, 1, 2, 3] from rfl, h]

/- ## Effect of one increment -/

theorem incr_snd_eq (st : Store) (k : String) :
    (st.incr k).2 = st.setStr k (intRepr
      ((match st.get k with
        | some s => (pyInt s).getD 0
        | none => 0) + 1)) := rfl

theorem init_find_other (st : Store) (key q : String) (h : q ≠ key) :
    (initCounterIfNecessary st key).find q = st.find q := by
  unfold initCounterIfNecessary
  split_ifs
  · rw [Store.find_setStr, if_neg h]
  · rfl

theorem incr2_find_other (st : Store) (k q : String) (h : q ≠ k) :
    ((st.incr k).2).find q = st.find q := by
  rw [incr_snd_eq, Store.find_setStr, if_neg h]

theorem incr2_find_self_isSome (st : Store) (k : String) :
    (((st.incr k).2).find k).isSome = true := by
  rw [incr_snd_eq, Store.find_setStr, if_pos rfl]
  rfl

theorem step_eq (ck : String) (i : ℕ) (t : Frac) (st : Store) :
    incrementPeriodicStep ck i t st =
      (if ((((initCounterIfNecessary st (periodicKeyAt ck i t)).incr
            (periodicKeyAt ck i t)).2).lindexLast ((periodic_list_keys ck).getD i "")) ≠
            some (periodicKeyAt ck i t)
       then (((initCounterIfNecessary st (periodicKeyAt ck i t)).incr
            (periodicKeyAt ck i t)).2).rpush ((periodic_list_keys ck).getD i "")
            (periodicKeyAt ck i t)
       else (((initCounterIfNecessary st (periodicKeyAt ck i t)).incr
            (periodicKeyAt ck i t)).2)) := rfl

theorem step_find_other (ck : String) (i : ℕ) (t : Frac) (st : Store) (q : String)
    (h1 : q ≠ periodicKeyAt ck i t) (h2 : q ≠ (periodic_list_keys ck).getD i "") :
    (incrementPeriodicStep ck i t st).find q = st.find q := by
  rw [step_eq]
  split_ifs with hc
  · rw [Store.find_rpush, if_neg h2, incr2_find_other _ _ _ h1,
      init_find_other _ _ _ h1]
  · rw [incr2_find_other _ _ _ h1, init_find_other _ _ _ h1]

theorem step_find_pk_isSome (ck : String) (i : ℕ) (t : Frac) (st : Store)
    (hne : periodicKeyAt ck i t ≠ (periodic_list_keys ck).getD i "") :
    ((incrementPeriodicStep ck i t st).find (periodicKeyAt ck i t)).isSome = true := by
  rw [step_eq]
  split_ifs with hc
  · rw [Store.find_rpush, if_neg hne]
    exact incr2_find_self_isSome _ _
  · exact incr2_find_self_isSome _ _

theorem step_getList_lk (ck : String) (i : ℕ) (t : Frac) (st : Store)
    (hne : periodicKeyAt ck i t ≠ (periodic_list_keys ck).getD i "") :
    (incrementPeriodicStep ck i t st).getList ((periodic_list_keys ck).getD i "") =
      if (st.getList ((periodic_list_keys ck).getD i "")).getLast? =
          some (periodicKeyAt ck i t)
      then st.getList ((periodic_list_keys ck).getD i "")
      else st.getList ((periodic_list_keys ck).getD i "") ++ [periodicKeyAt ck i t] := by
  have hl2 : (((initCounterIfNecessary st (periodicKeyAt ck i t)).incr
      (periodicKeyAt ck i t)).2).getList ((periodic_list_keys ck).getD i "") =
      st.getList ((periodic_list_keys ck).getD i "") := by
    apply Store.getList_congr
    rw [incr2_find_other _ _ _ (Ne.symm hne), init_find_other _ _ _ (Ne.symm hne)]
  rw [step_eq]
  by_cases hlast : (st.getList ((periodic_list_keys ck).getD i "")).getLast? =
      some (periodicKeyAt ck i t)
  · rw [if_neg (by rw [Store.lindexLast, hl2]; simpa using hlast), if_pos hlast]
    exact hl2
  · rw [if_pos (by rw [Store.lindexLast, hl2]; simpa using hlast), if_neg hlast,
      Store.getList_rpush_self, hl2]

/- ## The program's keys are pairwise distinct -/

theorem keyNeD (ck a b x y : String)
    (h : (List.range (min a.data.length b.data.length)).any
        (fun i => decide (a.data[i]? ≠ b.data[i]?)) = true) :
    (ck ++ a) ++ x ≠ (ck ++ b) ++ y := by
  rw [List.any_eq_true] at h
  obtain ⟨i, hi, hne⟩ := h
  rw [List.mem_range] at hi
  exact keyNe ck a b x y i (Nat.lt_min.mp hi).1 (Nat.lt_min.mp hi).2 (by simpa using hne)

theorem keyNeD2 (ck a b x : String)
    (h : (List.range (min a.data.length b.data.length)).any
        (fun i => decide (a.data[i]? ≠ b.data[i]?)) = true) :
    (ck ++ a) ++ x ≠ ck ++ b := by
  have h2 := keyNeD ck a b x "" h
  rw [str_append_empty] at h2
  exact h2

theorem keyNeD2' (ck a b y : String)
    (h : (List.range (min a.data.length b.data.length)).any
        (fun i => decide (a.data[i]? ≠ b.data[i]?)) = true) :
    ck ++ a ≠ (ck ++ b) ++ y := by
  have h2 := keyNeD ck a b "" y h
  rw [str_append_empty] at h2
  exact h2

theorem keyNeD1 (ck a b : String)
    (h : (List.range (min a.data.length b.data.length)).any
        (fun i => decide (a.data[i]? ≠ b.data[i]?)) = true) :
    ck ++ a ≠ ck ++ b := by
  have h2 := keyNeD ck a b "" "" h
  rw [str_append_empty, str_append_empty] at h2
  exact h2

theorem pk_ne_lk (ck : String) (t : Frac) (i j : ℕ) (hi : i < 4) (hj : j < 4) :
    periodicKeyAt ck i t ≠ (periodic_list_keys ck).getD j "" := by
  interval_cases i <;> interval_cases j <;>
    simp only [pKey0, pKey1, pKey2, pKey3, lkey0, lkey1, lkey2, lkey3] <;>
    exact keyNeD2 ck _ _ _ (by decide)

theorem pk_ne_pk (ck : String) (t u : Frac) (i j : ℕ) (hi : i < 4) (hj : j < 4)
    (hij : i ≠ j) : periodicKeyAt ck i t ≠ periodicKeyAt ck j u := by
  interval_cases i <;> interval_cases j <;> first
  | exact absurd rfl hij
  | (simp only [pKey0, pKey1, pKey2, pKey3]
     exact keyNeD ck _ _ _ _ (by decide))

theorem lk_ne_lk (ck : String) (i j : ℕ) (hi : i < 4) (hj : j < 4) (hij : i ≠ j) :
    (periodic_list_keys ck).getD i "" ≠ (periodic_list_keys ck).getD j "" := by
  interval_cases i <;> interval_cases j <;> first
  | exact absurd rfl hij
  | (simp only [lkey0, lkey1, lkey2, lkey3]
     exact keyNeD1 ck _ _ (by decide))

theorem rk_ne_lk (ck : String) (i j : ℕ) (hi : i < 5) (hj : j < 4) :
    (recent_counts_keys ck).getD i "" ≠ (periodic_list_keys ck).getD j "" := by
  interval_cases i <;> interval_cases j <;>
    simp only [rkey0, rkey1, rkey2, rkey3, rkey4, lkey0, lkey1, lkey2, lkey3] <;>
    exact keyNeD1 ck _ _ (by decide)

theorem rk_ne_pk (ck : String) (t : Frac) (i j : ℕ) (hi : i < 5) (hj : j < 4) :
    (recent_counts_keys ck).getD i "" ≠ periodicKeyAt ck j t := by
  interval_cases i <;> interval_cases j <;>
    simp only [rkey0, rkey1, rkey2, rkey3, rkey4, pKey0, pKey1, pKey2, pKey3] <;>
    exact keyNeD2' ck _ _ _ (by decide)

theorem rk_ne_rk (ck : String) (i j : ℕ) (hi : i < 5) (hj : j < 5) (hij : i ≠ j) :
    (recent_counts_keys ck).getD i "" ≠ (recent_counts_keys ck).getD j "" := by
  interval_cases i <;> interval_cases j <;> first
  | exact absurd rfl hij
  | (simp only [rkey0, rkey1, rkey2, rkey3, rkey4]
     exact keyNeD1 ck _ _ (by decide))

theorem ck_ne_rk (ck : String) (i : ℕ) (hi : i < 5) :
    ck ≠ (recent_counts_keys ck).getD i "" := by
  interval_cases i <;>
    simp only [rkey0, rkey1, rkey2, rkey3, rkey4] <;>
    exact self_ne_append ck _ (by decide)

theorem ck_ne_lk (ck : String) (j : ℕ) (hj : j < 4) :
    ck ≠ (periodic_list_keys ck).getD j "" := by
  interval_cases j <;>
    simp only [lkey0, lkey1, lkey2, lkey3] <;>
    exact self_ne_append ck _ (by decide)

theorem ck_ne_pk (ck : String) (t : Frac) (j : ℕ) (hj : j < 4) :
    ck ≠ periodicKeyAt ck j t := by
  interval_cases j <;>
    simp only [pKey0, pKey1, pKey2, pKey3] <;>
    exact self_ne_append2 ck _ _ (by decide)

/- ## increment_counter, decomposed -/

theorem Store.getList_rpush_ne (st : Store) (k v q : String) (h : q ≠ k) :
    (st.rpush k v).getList q = st.getList q := by
  apply Store.getList_congr
  rw [Store.find_rpush, if_neg h]

theorem Store.get_eq_some (st : Store) (k s : String) :
    st.get k = some s ↔ st.find k = some (RVal.str s) := by
  unfold Store.get
  cases h : st.find k with
  | none => simp
  | some v => cases v <;> simp

theorem Store.get_setStr_self (st : Store) (k v : String) :
    (st.setStr k v).get k = some v := by
  unfold Store.get
  rw [Store.find_setStr, if_pos rfl]

theorem increment_unfold (ck : String) (now : Frac) (tper : ℕ → Frac) (st : Store) :
    increment_counter ck now tper st =
      ((incrementPeriodicStep ck 3 (tper 3)
        (incrementPeriodicStep ck 2 (tper 2)
          (incrementPeriodicStep ck 1 (tper 1)
            (incrementPeriodicStep ck 0 (tper 0)
              ((recent_counts_keys ck).foldl
                (fun s key => s.rpush key (floatRepr now)) st))))).incr ck) := rfl

theorem pushes_find_other (ck val : String) (st : Store) (q : String)
    (h : ∀ j, j < 5 → q ≠ (recent_counts_keys ck).getD j "") :
    ((recent_counts_keys ck).foldl (fun s key => s.rpush key val) st).find q =
      st.find q := by
  have h0 := h 0 (by omega)
  have h1 := h 1 (by omega)
  have h2 := h 2 (by omega)
  have h3 := h 3 (by omega)
  have h4 := h 4 (by omega)
  rw [rkey0] at h0
  rw [rkey1] at h1
  rw [rkey2] at h2
  rw [rkey3] at h3
  rw [rkey4] at h4
  rw [recent_keys_eq]
  simp only [List.foldl_cons, List.foldl_nil]
  rw [Store.find_rpush, if_neg h4, Store.find_rpush, if_neg h3, Store.find_rpush,
    if_neg h2, Store.find_rpush, if_neg h1, Store.find_rpush, if_neg h0]

theorem pushes_getList_rk (ck val : String) (st : Store) (i : ℕ) (hi : i < 5) :
    ((recent_counts_keys ck).foldl (fun s key => s.rpush key val) st).getList
        ((recent_counts_keys ck).getD i "") =
      st.getList ((recent_counts_keys ck).getD i "") ++ [val] := by
  interval_cases i
  · rw [rkey0, recent_keys_eq]
    simp only [List.foldl_cons, List.foldl_nil]
    rw [Store.getList_rpush_ne _ _ _ _ (keyNeD1 ck ":last_five_seconds" ":last_month" (by decide)),
      Store.getList_rpush_ne _ _ _ _ (keyNeD1 ck ":last_five_seconds" ":last_week" (by decide)),
      Store.getList_rpush_ne _ _ _ _ (keyNeD1 ck ":last_five_seconds" ":last_day" (by decide)),
      Store.getList_rpush_ne _ _ _ _ (keyNeD1 ck ":last_five_seconds" ":last_hour" (by decide)),
      Store.getList_rpush_self]
  · rw [rkey1, recent_keys_eq]
    simp only [List.foldl_cons, List.foldl_nil]
    rw [Store.getList_rpush_ne _ _ _ _ (keyNeD1 ck ":last_hour" ":last_month" (by decide)),
      Store.getList_rpush_ne _ _ _ _ (keyNeD1 ck ":last_hour" ":last_week" (by decide)),
      Store.getList_rpush_ne _ _ _ _ (keyNeD1 ck ":last_hour" ":last_day" (by decide)),
      Store.getList_rpush_self,
      Store.getList_rpush_ne _ _ _ _ (keyNeD1 ck ":last_hour" ":last_five_seconds" (by decide))]
  · rw [rkey2, recent_keys_eq]
    simp only [List.foldl_cons, List.foldl_nil]
    rw [Store.getList_rpush_ne _ _ _ _ (keyNeD1 ck ":last_day" ":last_month" (by decide)),
      Store.getList_rpush_ne _ _ _ _ (keyNeD1 ck ":last_day" ":last_week" (by decide)),
      Store.getList_rpush_self,
      Store.getList_rpush_ne _ _ _ _ (keyNeD1 ck ":last_day" ":last_hour" (by decide)),
      Store.getList_rpush_ne _ _ _ _ (keyNeD1 ck ":last_day" ":last_five_seconds" (by decide))]
  · rw [rkey3, recent_keys_eq]
    simp only [List.foldl_cons, List.foldl_nil]
    rw [Store.getList_rpush_ne _ _ _ _ (keyNeD1 ck ":last_week" ":last_month" (by decide)),
      Store.getList_rpush_self,
      Store.getList_rpush_ne _ _ _ _ (keyNeD1 ck ":last_week" ":last_day" (by decide)),
      Store.getList_rpush_ne _ _ _ _ (keyNeD1 ck ":last_week" ":last_hour" (by decide)),
      Store.getList_rpush_ne _ _ _ _ (keyNeD1 ck ":last_week" ":last_five_seconds" (by decide))]
  · rw [rkey4, recent_keys_eq]
    simp only [List.foldl_cons, List.foldl_nil]
    rw [Store.getList_rpush_self,
      Store.getList_rpush_ne _ _ _ _ (keyNeD1 ck ":last_month" ":last_week" (by decide)),
      Store.getList_rpush_ne _ _ _ _ (keyNeD1 ck ":last_month" ":last_day" (by decide)),
      Store.getList_rpush_ne _ _ _ _ (keyNeD1 ck ":last_month" ":last_hour" (by decide)),
      Store.getList_rpush_ne _ _ _ _ (keyNeD1 ck ":last_month" ":last_five_seconds" (by decide))]

theorem steps_find_other (ck : String) (tper : ℕ → Frac) (st : Store) (q : String)
    (h1 : ∀ i, i < 4 → q ≠ periodicKeyAt ck i (tper i))
    (h2 : ∀ i, i < 4 → q ≠ (periodic_list_keys ck).getD i "") :
    (incrementPeriodicStep ck 3 (tper 3)
      (incrementPeriodicStep ck 2 (tper 2)
        (incrementPeriodicStep ck 1 (tper 1)
          (incrementPeriodicStep ck 0 (tper 0) st)))).find q = st.find q := by
  rw [step_find_other _ _ _ _ _ (h1 3 (by omega)) (h2 3 (by omega)),
    step_find_other _ _ _ _ _ (h1 2 (by omega)) (h2 2 (by omega)),
    step_find_other _ _ _ _ _ (h1 1 (by omega)) (h2 1 (by omega)),
    step_find_other _ _ _ _ _ (h1 0 (by omega)) (h2 0 (by omega))]

/-- Effect of increment_counter on the base counter key: when it holds the
decimal rendering of n, the call returns n + 1 and stores the rendering of
n + 1. -/
theorem increment_base (ck : String) (now : Frac) (tper : ℕ → Frac) (st : Store)
    (n : ℕ) (h : st.get ck = some (natRepr n)) :
    (increment_counter ck now tper st).1 = (n : ℤ) + 1 ∧
    ((increment_counter ck now tper st).2).get ck = some (natRepr (n + 1)) := by
  rw [increment_unfold]
  have hfind : (incrementPeriodicStep ck 3 (tper 3)
      (incrementPeriodicStep ck 2 (tper 2)
        (incrementPeriodicStep ck 1 (tper 1)
          (incrementPeriodicStep ck 0 (tper 0)
            ((recent_counts_keys ck).foldl
              (fun s key => s.rpush key (floatRepr now)) st))))).find ck = st.find ck := by
    rw [steps_find_other ck tper _ ck (fun i hi => ck_ne_pk ck (tper i) i hi)
        (fun i hi => ck_ne_lk ck i hi),
      pushes_find_other ck _ st ck (fun j hj => ck_ne_rk ck j hj)]
  have hget : (incrementPeriodicStep ck 3 (tper 3)
      (incrementPeriodicStep ck 2 (tper 2)
        (incrementPeriodicStep ck 1 (tper 1)
          (incrementPeriodicStep ck 0 (tper 0)
            ((recent_counts_keys ck).foldl
              (fun s key => s.rpush key (floatRepr now)) st))))).get ck =
      some (natRepr n) := by
    rw [Store.get_eq_some] at h ⊢
    rw [hfind]
    exact h
  obtain ⟨hv, hst⟩ := Store.incr_of_get _ ck n hget
  refine ⟨hv, ?_⟩
  rw [hst]
  exact Store.get_setStr_self _ _ _

/-- Effect of increment_counter on each sliding-window list: the one shared
sample now is appended (in its stored string form) to every window. -/
theorem increment_getList_rk (ck : String) (now : Frac) (tper : ℕ → Frac)
    (st : Store) (i : ℕ) (hi : i < 5) :
    ((increment_counter ck now tper st).2).getList ((recent_counts_keys ck).getD i "") =
      st.getList ((recent_counts_keys ck).getD i "") ++ [floatRepr now] := by
  rw [increment_unfold]
  have h1 : ((recent_counts_keys ck).getD i "") ≠ ck := Ne.symm (ck_ne_rk ck i hi)
  have h2 : ∀ j, j < 4 → ((recent_counts_keys ck).getD i "") ≠ periodicKeyAt ck j (tper j) :=
    fun j hj => rk_ne_pk ck (tper j) i j hi hj
  have h3 : ∀ j, j < 4 → ((recent_counts_keys ck).getD i "") ≠ (periodic_list_keys ck).getD j "" :=
    fun j hj => rk_ne_lk ck i j hi hj
  have hstep : ((incrementPeriodicStep ck 3 (tper 3)
      (incrementPeriodicStep ck 2 (tper 2)
        (incrementPeriodicStep ck 1 (tper 1)
          (incrementPeriodicStep ck 0 (tper 0)
            ((recent_counts_keys ck).foldl
              (fun s key => s.rpush key (floatRepr now)) st))))).incr ck).2.getList
        ((recent_counts_keys ck).getD i "") =
      ((recent_counts_keys ck).foldl
        (fun s key => s.rpush key (floatRepr now)) st).getList
        ((recent_counts_keys ck).getD i "") := by
    apply Store.getList_congr
    rw [incr2_find_other _ _ _ h1]
    exact steps_find_other ck tper _ _ h2 h3
  rw [hstep, pushes_getList_rk ck _ st i hi]

/-- Effect of increment_counter on the bucket it touches for granularity i:
the bucket key derived from that iteration's own sample tper i is present
afterwards. -/
theorem increment_bucket_isSome (ck : String) (now : Frac) (tper : ℕ → Frac)
    (st : Store) (i : ℕ) (hi : i < 4) :
    (((increment_counter ck now tper st).2).find (periodicKeyAt ck i (tper i))).isSome
      = true := by
  rw [increment_unfold]
  rw [incr2_find_other _ _ _ (Ne.symm (ck_ne_pk ck (tper i) i hi))]
  interval_cases i
  · rw [step_find_other _ _ _ _ _
        (pk_ne_pk ck (tper 0) (tper 3) 0 3 (by omega) (by omega) (by omega))
        (pk_ne_lk ck (tper 0) 0 3 (by omega) (by omega)),
      step_find_other _ _ _ _ _
        (pk_ne_pk ck (tper 0) (tper 2) 0 2 (by omega) (by omega) (by omega))
        (pk_ne_lk ck (tper 0) 0 2 (by omega) (by omega)),
      step_find_other _ _ _ _ _
        (pk_ne_pk ck (tper 0) (tper 1) 0 1 (by omega) (by omega) (by omega))
        (pk_ne_lk ck (tper 0) 0 1 (by omega) (by omega))]
    exact step_find_pk_isSome ck 0 (tper 0) _ (pk_ne_lk ck (tper 0) 0 0 (by omega) (by omega))
  · rw [step_find_other _ _ _ _ _
        (pk_ne_pk ck (tper 1) (tper 3) 1 3 (by omega) (by omega) (by omega))
        (pk_ne_lk ck (tper 1) 1 3 (by omega) (by omega)),
      step_find_other _ _ _ _ _
        (pk_ne_pk ck (tper 1) (tper 2) 1 2 (by omega) (by omega) (by omega))
        (pk_ne_lk ck (tper 1) 1 2 (by omega) (by omega))]
    exact step_find_pk_isSome ck 1 (tper 1) _ (pk_ne_lk ck (tper 1) 1 1 (by omega) (by omega))
  · rw [step_find_other _ _ _ _ _
        (pk_ne_pk ck (tper 2) (tper 3) 2 3 (by omega) (by omega) (by omega))
        (pk_ne_lk ck (tper 2) 2 3 (by omega) (by omega))]
    exact step_find_pk_isSome ck 2 (tper 2) _ (pk_ne_lk ck (tper 2) 2 2 (by omega) (by omega))
  · exact step_find_pk_isSome ck 3 (tper 3) _ (pk_ne_lk ck (tper 3) 3 3 (by omega) (by omega))

/-- increment_counter touches nothing outside the base key, the five window
keys, the four buckets it derives from its own samples, and the four index
lists. -/
theorem increment_find_other (ck : String) (now : Frac) (tper : ℕ → Frac)
    (st : Store) (q : String)
    (hck : q ≠ ck)
    (hrk : ∀ j, j < 5 → q ≠ (recent_counts_keys ck).getD j "")
    (hpk : ∀ j, j < 4 → q ≠ periodicKeyAt ck j (tper j))
    (hlk : ∀ j, j < 4 → q ≠ (periodic_list_keys ck).getD j "") :
    ((increment_counter ck now tper st).2).find q = st.find q := by
  rw [increment_unfold]
  rw [incr2_find_other _ _ _ hck, steps_find_other ck tper _ _ hpk hlk,
    pushes_find_other ck _ st q hrk]

/-- Effect of increment_counter on the granularity-i bucket index list:
the derived bucket key is appended exactly when it differs from the list's
last element (lines 80-83 of the source). -/
theorem increment_getList_lk (ck : String) (now : Frac) (tper : ℕ → Frac)
    (st : Store) (i : ℕ) (hi : i < 4) :
    ((increment_counter ck now tper st).2).getList ((periodic_list_keys ck).getD i "") =
      (if (st.getList ((periodic_list_keys ck).getD i "")).getLast? =
          some (periodicKeyAt ck i (tper i))
       then st.getList ((periodic_list_keys ck).getD i "")
       else st.getList ((periodic_list_keys ck).getD i "") ++
         [periodicKeyAt ck i (tper i)]) := by
  rw [increment_unfold]
  have hck : (periodic_list_keys ck).getD i "" ≠ ck := Ne.symm (ck_ne_lk ck i hi)
  have hIncr : ∀ s : Store, ((s.incr ck).2).getList ((periodic_list_keys ck).getD i "")
      = s.getList ((periodic_list_keys ck).getD i "") :=
    fun s => Store.getList_congr _ _ _ (incr2_find_other _ _ _ hck)
  have hpush : ((recent_counts_keys ck).foldl
      (fun s key => s.rpush key (floatRepr now)) st).getList
        ((periodic_list_keys ck).getD i "") =
      st.getList ((periodic_list_keys ck).getD i "") :=
    Store.getList_congr _ _ _ (pushes_find_other ck _ st _
      (fun j hj => Ne.symm (rk_ne_lk ck j i hj hi)))
  have hstrip : ∀ (j : ℕ), j < 4 → j ≠ i →
      ∀ s : Store, (incrementPeriodicStep ck j (tper j) s).getList
          ((periodic_list_keys ck).getD i "") =
        s.getList ((periodic_list_keys ck).getD i "") := by
    intro j hj hji s
    exact Store.getList_congr _ _ _ (step_find_other ck j (tper j) s _
      (Ne.symm (pk_ne_lk ck (tper j) j i hj hi))
      (lk_ne_lk ck i j hi hj (fun hh => hji hh.symm)))
  rw [hIncr]
  interval_cases i
  · rw [hstrip 3 (by omega) (by omega) _, hstrip 2 (by omega) (by omega) _,
      hstrip 1 (by omega) (by omega) _,
      step_getList_lk ck 0 (tper 0) _ (pk_ne_lk ck (tper 0) 0 0 (by omega) (by omega)),
      hpush]
  · rw [hstrip 3 (by omega) (by omega) _, hstrip 2 (by omega) (by omega) _,
      step_getList_lk ck 1 (tper 1) _ (pk_ne_lk ck (tper 1) 1 1 (by omega) (by omega)),
      hstrip 0 (by omega) (by omega) _, hpush]
  · rw [hstrip 3 (by omega) (by omega) _,
      step_getList_lk ck 2 (tper 2) _ (pk_ne_lk ck (tper 2) 2 2 (by omega) (by omega)),
      hstrip 1 (by omega) (by omega) _, hstrip 0 (by omega) (by omega) _, hpush]
  · rw [step_getList_lk ck 3 (tper 3) _ (pk_ne_lk ck (tper 3) 3 3 (by omega) (by omega)),
      hstrip 2 (by omega) (by omega) _, hstrip 1 (by omega) (by omega) _,
      hstrip 0 (by omega) (by omega) _, hpush]

/- ## Claims about increment_counter -/

/-- C6: during every increment_counter call, for each granularity the
derived bucket key is appended to that granularity's index list exactly
when the list's last element is not equal to it (append-if-changed,
comparing only the most recent entry). -/
theorem claim_C6 (ck : String) (now : Frac) (tper : ℕ → Frac) (st : Store)
    (i : ℕ) (hi : i < 4) :
    ((increment_counter ck now tper st).2).getList ((periodic_list_keys ck).getD i "") =
      (if (st.getList ((periodic_list_keys ck).getD i "")).getLast? =
          some (periodicKeyAt ck i (tper i))
       then st.getList ((periodic_list_keys ck).getD i "")
       else st.getList ((periodic_list_keys ck).getD i "") ++
         [periodicKeyAt ck i (tper i)]) :=
  increment_getList_lk ck now tper st i hi

theorem claim_C6_witness :
    (0 : ℕ) < 4 ∧
    ((increment_counter "RedisCounter:c" 0 (fun _ => 0) emptyStore).2).getList
        ((periodic_list_keys "RedisCounter:c").getD 0 "") =
      (if (emptyStore.getList ((periodic_list_keys "RedisCounter:c").getD 0 "")).getLast? =
          some (periodicKeyAt "RedisCounter:c" 0 0)
       then emptyStore.getList ((periodic_list_keys "RedisCounter:c").getD 0 "")
       else emptyStore.getList ((periodic_list_keys "RedisCounter:c").getD 0 "") ++
         [periodicKeyAt "RedisCounter:c" 0 0]) :=
  ⟨by decide, claim_C6 "RedisCounter:c" 0 (fun _ => 0) emptyStore 0 (by decide)⟩

/-- C10: within a single increment_counter call the five sliding-window
lists all receive the identical timestamp value (the one shared sample now),
while the periodic buckets touched are the ones labeled from the
separately taken samples tper i. -/
theorem claim_C10 (ck : String) (now : Frac) (tper : ℕ → Frac) (st : Store) :
    (∀ i, i < 5 → ((increment_counter ck now tper st).2).getList
        ((recent_counts_keys ck).getD i "") =
      st.getList ((recent_counts_keys ck).getD i "") ++ [floatRepr now]) ∧
    (∀ i, i < 4 → (((increment_counter ck now tper st).2).find
        (periodicKeyAt ck i (tper i))).isSome = true) :=
  ⟨fun i hi => increment_getList_rk ck now tper st i hi,
   fun i hi => increment_bucket_isSome ck now tper st i hi⟩

theorem claim_C10_witness :
    (1 : ℕ) < 5 ∧
    ((increment_counter "RedisCounter:c" 0 (fun _ => 3600) emptyStore).2).getList
        ((recent_counts_keys "RedisCounter:c").getD 1 "") =
      emptyStore.getList ((recent_counts_keys "RedisCounter:c").getD 1 "") ++
        [floatRepr 0] :=
  ⟨by decide, (claim_C10 "RedisCounter:c" 0 (fun _ => 3600) emptyStore).1 1 (by decide)⟩

/-- C1: refuted as stated.  One increment from a fresh counter, whose
line-70 sample is instant 0 but whose periodic-loop samples (line 77) are
instant 3600, appends instant 0 to the windows while touching the hour
bucket labeled from 3600; the hour bucket of instant 0 is absent.  So the
bucket touched does not refer to the same instant as the window entries. -/
theorem claim_C1_counterexample :
    (((increment_counter "RedisCounter:c" 0 (fun _ => 3600)
        (initCounterIfNecessary emptyStore "RedisCounter:c")).2).getList
      "RedisCounter:c:last_hour" = [floatRepr 0]) ∧
    ((increment_counter "RedisCounter:c" 0 (fun _ => 3600)
        (initCounterIfNecessary emptyStore "RedisCounter:c")).2).find
      (periodicKeyAt "RedisCounter:c" 0 0) = none ∧
    (((increment_counter "RedisCounter:c" 0 (fun _ => 3600)
        (initCounterIfNecessary emptyStore "RedisCounter:c")).2).find
      (periodicKeyAt "RedisCounter:c" 0 3600)).isSome = true := by
  decide

/-- C1 (amended): one shared sample now is used for all five sliding-window
appends, but each periodic bucket label is derived from that loop
iteration's own time sample tper i: the bucket touched for granularity i is
the one labeled from tper i, and the bucket labeled from now is left
untouched whenever its key differs. -/
theorem claim_C1 (ck : String) (now : Frac) (tper : ℕ → Frac) (st : Store) :
    (∀ i, i < 5 → ((increment_counter ck now tper st).2).getList
        ((recent_counts_keys ck).getD i "") =
      st.getList ((recent_counts_keys ck).getD i "") ++ [floatRepr now]) ∧
    (∀ i, i < 4 → (((increment_counter ck now tper st).2).find
        (periodicKeyAt ck i (tper i))).isSome = true) ∧
    (∀ i, i < 4 → periodicKeyAt ck i now ≠ periodicKeyAt ck i (tper i) →
      ((increment_counter ck now tper st).2).find (periodicKeyAt ck i now) =
        st.find (periodicKeyAt ck i now)) := by
  refine ⟨fun i hi => increment_getList_rk ck now tper st i hi,
    fun i hi => increment_bucket_isSome ck now tper st i hi,
    fun i hi hne => ?_⟩
  apply increment_find_other
  · exact Ne.symm (ck_ne_pk ck now i hi)
  · exact fun j hj => Ne.symm (rk_ne_pk ck now j i hj hi)
  · intro j hj
    by_cases hij : j = i
    · subst hij
      exact hne
    · exact pk_ne_pk ck now (tper j) i j hi hj (fun hh => hij hh.symm)
  · exact fun j hj => pk_ne_lk ck now i j hi hj

theorem claim_C1_witness :
    (0 : ℕ) < 4 ∧
    periodicKeyAt "RedisCounter:c" 0 0 ≠ periodicKeyAt "RedisCounter:c" 0 3600 ∧
    ((increment_counter "RedisCounter:c" 0 (fun _ => 3600) emptyStore).2).find
        (periodicKeyAt "RedisCounter:c" 0 0) =
      emptyStore.find (periodicKeyAt "RedisCounter:c" 0 0) :=
  ⟨by decide, by decide,
   (claim_C1 "RedisCounter:c" 0 (fun _ => 3600) emptyStore).2.2 0 (by decide) (by decide)⟩

/-- The base key after n increments from a state whose base key renders n0. -/
theorem afterIncrements_get (ck : String) (sched : ℕ → Frac × (ℕ → Frac))
    (st0 : Store) (n0 : ℕ) (h0 : st0.get ck = some (natRepr n0)) :
    ∀ N, (afterIncrements ck sched N st0).get ck = some (natRepr (n0 + N)) := by
  intro N
  induction N with
  | zero => simpa using h0
  | succ m ih =>
    rw [afterIncrements]
    have h := (increment_base ck (sched m).1 (sched m).2 _ (n0 + m) ih).2
    rw [h]
    have : n0 + m + 1 = n0 + (m + 1) := by omega
    rw [this]

theorem init_get_base (ck : String) :
    (initCounterIfNecessary emptyStore ck).get ck = some (natRepr 0) := by
  unfold initCounterIfNecessary
  rw [if_pos]
  · exact Store.get_setStr_self _ _ _
  · rfl

/-- C2: from a fresh (absent) counter, after N increment_counter calls the
stored total read by current_count is the decimal rendering of N, and the
N-th call returns N. -/
theorem claim_C2 (name : String) (sched : ℕ → Frac × (ℕ → Frac)) (N : ℕ) :
    current_count (KEY_PREFIX_STR ++ name)
        (afterIncrements (KEY_PREFIX_STR ++ name) sched N
          (initCounterIfNecessary emptyStore (KEY_PREFIX_STR ++ name))) =
      some (natRepr N) ∧
    (0 < N →
      (increment_counter (KEY_PREFIX_STR ++ name) (sched (N - 1)).1 (sched (N - 1)).2
        (afterIncrements (KEY_PREFIX_STR ++ name) sched (N - 1)
          (initCounterIfNecessary emptyStore (KEY_PREFIX_STR ++ name)))).1 =
      (N : ℤ)) := by
  have hbase := afterIncrements_get (KEY_PREFIX_STR ++ name) sched _ 0
    (init_get_base (KEY_PREFIX_STR ++ name))
  constructor
  · have h := hbase N
    simpa [current_count] using h
  · intro hN
    have h := hbase (N - 1)
    simp only [Nat.zero_add] at h
    have h2 := (increment_base (KEY_PREFIX_STR ++ name) (sched (N - 1)).1
      (sched (N - 1)).2 _ (N - 1) h).1
    rw [h2]
    have : ((N - 1 : ℕ) : ℤ) = (N : ℤ) - 1 := by omega
    rw [this]
    ring

theorem claim_C2_witness :
    (0 : ℕ) < 2 ∧
    (increment_counter (KEY_PREFIX_STR ++ "c")
        ((fun n : ℕ => ((n : Frac), fun _ : ℕ => (n : Frac))) (2 - 1)).1
        ((fun n => ((n : Frac), fun _ : ℕ => (n : Frac))) (2 - 1)).2
        (afterIncrements (KEY_PREFIX_STR ++ "c")
          (fun n => ((n : Frac), fun _ : ℕ => (n : Frac))) (2 - 1)
          (initCounterIfNecessary emptyStore (KEY_PREFIX_STR ++ "c")))).1 =
      ((2 : ℕ) : ℤ) :=
  ⟨by decide,
   (claim_C2 "c" (fun n => ((n : Frac), fun _ : ℕ => (n : Frac))) 2).2 (by decide)⟩

/- ## The delete loop -/

theorem find_of_getList_cons (st : Store) (lk x : String) (xs : List String)
    (h : st.getList lk = x :: xs) :
    st.find lk = some (RVal.list (x :: xs)) := by
  unfold Store.getList at h
  cases hf : st.find lk with
  | none => rw [hf] at h; cases h
  | some v =>
    cases v with
    | str s => rw [hf] at h; cases h
    | list l =>
      rw [hf] at h
      have h2 : l = x :: xs := h
      rw [h2]

/-- A key absent before a drain is absent after it: the loop only pops and
deletes. -/
theorem drainAux_absent : ∀ (fuel : ℕ) (st : Store) (lk q : String),
    st.find q = none → (drainListAux fuel st lk).find q = none := by
  intro fuel
  induction fuel with
  | zero => intro st lk q h; exact h
  | succ f ih =>
    intro st lk q h
    cases hgl : st.getList lk with
    | nil =>
      have hp : st.lpop lk = (none, st) := by
        unfold Store.lpop
        rw [hgl]
      rw [drainListAux]
      simp only [hp]
      exact h
    | cons x xs =>
      have hp : st.lpop lk =
          (some x, if xs.isEmpty then st.del lk else st.upd lk (some (RVal.list xs))) := by
        unfold Store.lpop
        rw [hgl]
      have hlkq : q ≠ lk := by
        intro hq
        rw [hq, find_of_getList_cons st lk x xs hgl] at h
        cases h
      have hst2 : (if xs.isEmpty then st.del lk else st.upd lk (some (RVal.list xs))).find q
          = none := by
        split_ifs
        · rw [Store.find_del, if_neg hlkq]
          exact h
        · rw [Store.find_upd, if_neg hlkq]
          exact h
      rw [drainListAux]
      simp only [hp]
      by_cases hx : x = ""
      · rw [if_pos hx]
        exact hst2
      · rw [if_neg hx]
        apply ih
        by_cases hqx : q = x
        · rw [Store.find_del, if_pos hqx]
        · rw [Store.find_del, if_neg hqx]
          exact hst2


/-- A drain changes nothing outside the drained list key and the keys the
list held. -/
theorem drainAux_frame : ∀ (fuel : ℕ) (st : Store) (lk q : String),
    q ≠ lk → q ∉ st.getList lk →
    (drainListAux fuel st lk).find q = st.find q := by
  intro fuel
  induction fuel with
  | zero => intro st lk q h1 h2; rfl
  | succ f ih =>
    intro st lk q h1 h2
    cases hgl : st.getList lk with
    | nil =>
      have hp : st.lpop lk = (none, st) := by
        unfold Store.lpop
        rw [hgl]
      rw [drainListAux]
      simp only [hp]
    | cons x xs =>
      have hp : st.lpop lk =
          (some x, if xs.isEmpty then st.del lk else st.upd lk (some (RVal.list xs))) := by
        unfold Store.lpop
        rw [hgl]
      rw [hgl] at h2
      have hqx : q ≠ x := by
        intro hq
        exact h2 (by rw [hq]; exact List.mem_cons_self x xs)
      have hqxs : q ∉ xs := fun hq => h2 (List.mem_cons_of_mem _ hq)
      have hst2 : (if xs.isEmpty then st.del lk else st.upd lk (some (RVal.list xs))).find q
          = st.find q := by
        split_ifs
        · rw [Store.find_del, if_neg h1]
        · rw [Store.find_upd, if_neg h1]
      rw [drainListAux]
      simp only [hp]
      by_cases hx : x = ""
      · rw [if_pos hx]
        exact hst2
      · rw [if_neg hx]
        have hfr3 : ((if xs.isEmpty then st.del lk
            else st.upd lk (some (RVal.list xs))).del x).find q = st.find q := by
          rw [Store.find_del, if_neg hqx]
          exact hst2
        have hgl3 : q ∉ ((if xs.isEmpty then st.del lk
            else st.upd lk (some (RVal.list xs))).del x).getList lk := by
          intro hq
          have hsub : ((if xs.isEmpty then st.del lk
              else st.upd lk (some (RVal.list xs))).del x).getList lk =
              (if xs.isEmpty then st.del lk
                else st.upd lk (some (RVal.list xs))).getList lk ∨
              ((if xs.isEmpty then st.del lk
                else st.upd lk (some (RVal.list xs))).del x).getList lk = [] := by
            by_cases hxlk : x = lk
            · right
              unfold Store.getList
              rw [Store.find_del, if_pos hxlk.symm]
            · left
              apply Store.getList_congr
              rw [Store.find_del, if_neg (fun hh => hxlk hh.symm)]
          rcases hsub with hsub | hsub
          · rw [hsub] at hq
            have hgl2 : (if xs.isEmpty then st.del lk
                else st.upd lk (some (RVal.list xs))).getList lk = [] ∨
                (if xs.isEmpty then st.del lk
                  else st.upd lk (some (RVal.list xs))).getList lk = xs := by
              split_ifs
              · left
                unfold Store.getList
                rw [Store.find_del, if_pos rfl]
              · right
                unfold Store.getList
                rw [Store.find_upd, if_pos rfl]
            rcases hgl2 with hgl2 | hgl2
            · rw [hgl2] at hq
              cases hq
            · rw [hgl2] at hq
              exact hqxs hq
          · rw [hsub] at hq
            cases hq
        rw [ih _ _ _ h1 hgl3]
        exact hfr3

/-- Draining a list of nonempty keys distinct from the list key removes the
list key and every key the list held. -/
theorem drainAux_kills : ∀ (l : List String) (st : Store) (lk : String) (fuel : ℕ),
    st.getList lk = l → l.length ≤ fuel →
    (∀ x ∈ l, x ≠ "" ∧ x ≠ lk) →
    (st.find lk = none ∨ ∃ l', st.find lk = some (RVal.list l') ∧ l' ≠ []) →
    (drainListAux fuel st lk).find lk = none ∧
    ∀ x ∈ l, (drainListAux fuel st lk).find x = none := by
  intro l
  induction l with
  | nil =>
    intro st lk fuel hgl hlen hx hshape
    have hfind : st.find lk = none := by
      rcases hshape with h | ⟨l', hl', hne⟩
      · exact h
      · exfalso
        apply hne
        unfold Store.getList at hgl
        rw [hl'] at hgl
        exact hgl
    refine ⟨drainAux_absent fuel st lk lk hfind, ?_⟩
    intro x hx2
    cases hx2
  | cons x xs ih =>
    intro st lk fuel hgl hlen hx hshape
    cases fuel with
    | zero =>
      exact absurd hlen (by simp)
    | succ f =>
      obtain ⟨hxe, hxlk⟩ := hx x (by simp)
      have hp : st.lpop lk =
          (some x, if xs.isEmpty then st.del lk else st.upd lk (some (RVal.list xs))) := by
        unfold Store.lpop
        rw [hgl]
      have hst2gl : (if xs.isEmpty then st.del lk
          else st.upd lk (some (RVal.list xs))).getList lk = xs := by
        split_ifs with hemp
        · unfold Store.getList
          rw [Store.find_del, if_pos rfl]
          exact (List.isEmpty_iff.mp hemp).symm
        · unfold Store.getList
          rw [Store.find_upd, if_pos rfl]
      have hst3gl : (((if xs.isEmpty then st.del lk
          else st.upd lk (some (RVal.list xs)))).del x).getList lk = xs := by
        rw [Store.getList_congr _ (if xs.isEmpty then st.del lk
            else st.upd lk (some (RVal.list xs))) lk
          (by rw [Store.find_del, if_neg (fun hh => hxlk hh.symm)])]
        exact hst2gl
      have hst3shape : (((if xs.isEmpty then st.del lk
          else st.upd lk (some (RVal.list xs)))).del x).find lk = none ∨
          ∃ l', (((if xs.isEmpty then st.del lk
            else st.upd lk (some (RVal.list xs)))).del x).find lk =
              some (RVal.list l') ∧ l' ≠ [] := by
        rw [Store.find_del, if_neg (fun hh => hxlk hh.symm)]
        split_ifs with hemp
        · left
          rw [Store.find_del, if_pos rfl]
        · right
          refine ⟨xs, ?_, ?_⟩
          · rw [Store.find_upd, if_pos rfl]
          · intro hh
            rw [hh] at hemp
            exact hemp rfl
      have hst3fuel : xs.length ≤ f := by
        have hL : (x :: xs).length = xs.length + 1 := rfl
        omega
      obtain ⟨k1, k2⟩ := ih (((if xs.isEmpty then st.del lk
          else st.upd lk (some (RVal.list xs)))).del x) lk f hst3gl hst3fuel
        (fun y hy => hx y (List.mem_cons_of_mem _ hy)) hst3shape
      rw [drainListAux]
      simp only [hp]
      rw [if_neg hxe]
      refine ⟨k1, ?_⟩
      intro y hy
      rcases List.mem_cons.mp hy with hy | hy
      · subst hy
        apply drainAux_absent
        rw [Store.find_del, if_pos rfl]
      · exact k2 y hy

theorem drain_absent (st : Store) (lk q : String) (h : st.find q = none) :
    (drainList st lk).find q = none :=
  drainAux_absent _ _ _ _ h

theorem drain_frame (st : Store) (lk q : String) (h1 : q ≠ lk)
    (h2 : q ∉ st.getList lk) :
    (drainList st lk).find q = st.find q :=
  drainAux_frame _ _ _ _ h1 h2

theorem drain_kills (st : Store) (lk : String)
    (hx : ∀ x ∈ st.getList lk, x ≠ "" ∧ x ≠ lk)
    (hshape : st.find lk = none ∨
      ∃ l', st.find lk = some (RVal.list l') ∧ l' ≠ []) :
    (drainList st lk).find lk = none ∧
    ∀ x ∈ st.getList lk, (drainList st lk).find x = none :=
  drainAux_kills (st.getList lk) st lk (st.llen lk) rfl (Nat.le_refl _) hx hshape

theorem foldl_del_absent (keys : List String) (st : Store) (q : String)
    (h : st.find q = none) :
    (keys.foldl (fun s k => s.del k) st).find q = none := by
  induction keys generalizing st with
  | nil => exact h
  | cons k ks ih =>
    simp only [List.foldl_cons]
    apply ih
    by_cases hq : q = k
    · rw [Store.find_del, if_pos hq]
    · rw [Store.find_del, if_neg hq]
      exact h

theorem foldl_del_mem (keys : List String) (st : Store) (q : String) (h : q ∈ keys) :
    (keys.foldl (fun s k => s.del k) st).find q = none := by
  induction keys generalizing st with
  | nil => cases h
  | cons k ks ih =>
    simp only [List.foldl_cons]
    by_cases hq : q ∈ ks
    · exact ih _ hq
    · have hqk : q = k := by
        rcases List.mem_cons.mp h with h1 | h1
        · exact h1
        · exact absurd h1 hq
      apply foldl_del_absent
      rw [Store.find_del, if_pos hqk]

theorem foldl_del_frame (keys : List String) (st : Store) (q : String) (h : q ∉ keys) :
    (keys.foldl (fun s k => s.del k) st).find q = st.find q := by
  induction keys generalizing st with
  | nil => rfl
  | cons k ks ih =>
    simp only [List.foldl_cons]
    rw [ih _ (fun hq => h (List.mem_cons_of_mem _ hq)), Store.find_del,
      if_neg (fun hq => h (by rw [hq]; exact List.mem_cons_self k ks))]

theorem periodic_list_keys_eq (ck : String) :
    periodic_list_keys ck =
      [ck ++ ":historical_hours_list", ck ++ ":historical_days_list",
       ck ++ ":historical_weeks_list", ck ++ ":historical_months_list"] := by
  show [(ck ++ ":") ++ "historical_hours_list", (ck ++ ":") ++ "historical_days_list",
      (ck ++ ":") ++ "historical_weeks_list", (ck ++ ":") ++ "historical_months_list"] = _
  rw [append_lit ck ":" "historical_hours_list" ":historical_hours_list" (by decide),
    append_lit ck ":" "historical_days_list" ":historical_days_list" (by decide),
    append_lit ck ":" "historical_weeks_list" ":historical_weeks_list" (by decide),
    append_lit ck ":" "historical_months_list" ":historical_months_list" (by decide)]

theorem delete_unfold (ck : String) (st : Store) :
    delete_counter ck st =
      drainList (drainList (drainList (drainList
        ((recent_counts_keys ck).foldl (fun s k => s.del k) (st.del ck))
        ((periodic_list_keys ck).getD 0 ""))
        ((periodic_list_keys ck).getD 1 ""))
        ((periodic_list_keys ck).getD 2 ""))
        ((periodic_list_keys ck).getD 3 "") := by
  simp only [delete_counter]
  rw [lkey0, lkey1, lkey2, lkey3, periodic_list_keys_eq]
  simp only [List.foldl_cons, List.foldl_nil]

theorem append2_ne_empty (ck a x : String) (ha : a.data ≠ []) :
    (ck ++ a) ++ x ≠ "" := by
  intro h
  have hd := congrArg String.data h
  rw [data_append, data_append, data_empty] at hd
  have hl := congrArg List.length hd
  simp only [List.length_append, List.length_nil] at hl
  exact ha (List.length_eq_zero.mp (by omega))

theorem pk_ne_empty (ck : String) (t : Frac) (i : ℕ) (hi : i < 4) :
    periodicKeyAt ck i t ≠ "" := by
  interval_cases i <;> simp only [pKey0, pKey1, pKey2, pKey3] <;>
    exact append2_ne_empty ck _ _ (by decide)

theorem step_find_lk (ck : String) (i : ℕ) (t : Frac) (st : Store)
    (hne : periodicKeyAt ck i t ≠ (periodic_list_keys ck).getD i "") :
    (incrementPeriodicStep ck i t st).find ((periodic_list_keys ck).getD i "") =
      (if (st.getList ((periodic_list_keys ck).getD i "")).getLast? =
          some (periodicKeyAt ck i t)
       then st.find ((periodic_list_keys ck).getD i "")
       else some (RVal.list (st.getList ((periodic_list_keys ck).getD i "") ++
         [periodicKeyAt ck i t]))) := by
  have hfind2 : (((initCounterIfNecessary st (periodicKeyAt ck i t)).incr
      (periodicKeyAt ck i t)).2).find ((periodic_list_keys ck).getD i "") =
      st.find ((periodic_list_keys ck).getD i "") := by
    rw [incr2_find_other _ _ _ (Ne.symm hne), init_find_other _ _ _ (Ne.symm hne)]
  have hl2 : (((initCounterIfNecessary st (periodicKeyAt ck i t)).incr
      (periodicKeyAt ck i t)).2).getList ((periodic_list_keys ck).getD i "") =
      st.getList ((periodic_list_keys ck).getD i "") :=
    Store.getList_congr _ _ _ hfind2
  rw [step_eq]
  by_cases hlast : (st.getList ((periodic_list_keys ck).getD i "")).getLast? =
      some (periodicKeyAt ck i t)
  · rw [if_neg (by rw [Store.lindexLast, hl2]; simpa using hlast), if_pos hlast]
    exact hfind2
  · rw [if_pos (by rw [Store.lindexLast, hl2]; simpa using hlast), if_neg hlast,
      Store.find_rpush, if_pos rfl, hl2]

theorem increment_find_lk (ck : String) (now : Frac) (tper : ℕ → Frac)
    (st : Store) (i : ℕ) (hi : i < 4) :
    ((increment_counter ck now tper st).2).find ((periodic_list_keys ck).getD i "") =
      (if (st.getList ((periodic_list_keys ck).getD i "")).getLast? =
          some (periodicKeyAt ck i (tper i))
       then st.find ((periodic_list_keys ck).getD i "")
       else some (RVal.list (st.getList ((periodic_list_keys ck).getD i "") ++
         [periodicKeyAt ck i (tper i)]))) := by
  rw [increment_unfold]
  have hck : (periodic_list_keys ck).getD i "" ≠ ck := Ne.symm (ck_ne_lk ck i hi)
  have hIncr : ∀ s : Store, ((s.incr ck).2).find ((periodic_list_keys ck).getD i "")
      = s.find ((periodic_list_keys ck).getD i "") :=
    fun s => incr2_find_other _ _ _ hck
  have hpushF : ((recent_counts_keys ck).foldl
      (fun s key => s.rpush key (floatRepr now)) st).find
        ((periodic_list_keys ck).getD i "") =
      st.find ((periodic_list_keys ck).getD i "") :=
    pushes_find_other ck _ st _ (fun j hj => Ne.symm (rk_ne_lk ck j i hj hi))
  have hpushL : ((recent_counts_keys ck).foldl
      (fun s key => s.rpush key (floatRepr now)) st).getList
        ((periodic_list_keys ck).getD i "") =
      st.getList ((periodic_list_keys ck).getD i "") :=
    Store.getList_congr _ _ _ hpushF
  have hstrip : ∀ (j : ℕ), j < 4 → j ≠ i →
      ∀ s : Store, (incrementPeriodicStep ck j (tper j) s).find
          ((periodic_list_keys ck).getD i "") =
        s.find ((periodic_list_keys ck).getD i "") := by
    intro j hj hji s
    exact step_find_other ck j (tper j) s _
      (Ne.symm (pk_ne_lk ck (tper j) j i hj hi))
      (lk_ne_lk ck i j hi hj (fun hh => hji hh.symm))
  have hstripL : ∀ (j : ℕ), j < 4 → j ≠ i →
      ∀ s : Store, (incrementPeriodicStep ck j (tper j) s).getList
          ((periodic_list_keys ck).getD i "") =
        s.getList ((periodic_list_keys ck).getD i "") :=
    fun j hj hji s => Store.getList_congr _ _ _ (hstrip j hj hji s)
  rw [hIncr]
  interval_cases i
  · rw [hstrip 3 (by omega) (by omega) _, hstrip 2 (by omega) (by omega) _,
      hstrip 1 (by omega) (by omega) _,
      step_find_lk ck 0 (tper 0) _ (pk_ne_lk ck (tper 0) 0 0 (by omega) (by omega)),
      hpushF, hpushL]
  · rw [hstrip 3 (by omega) (by omega) _, hstrip 2 (by omega) (by omega) _,
      step_find_lk ck 1 (tper 1) _ (pk_ne_lk ck (tper 1) 1 1 (by omega) (by omega)),
      hstrip 0 (by omega) (by omega) _, hstripL 0 (by omega) (by omega) _,
      hpushF, hpushL]
  · rw [hstrip 3 (by omega) (by omega) _,
      step_find_lk ck 2 (tper 2) _ (pk_ne_lk ck (tper 2) 2 2 (by omega) (by omega)),
      hstrip 1 (by omega) (by omega) _, hstrip 0 (by omega) (by omega) _,
      hstripL 1 (by omega) (by omega) _, hstripL 0 (by omega) (by omega) _,
      hpushF, hpushL]
  · rw [step_find_lk ck 3 (tper 3) _ (pk_ne_lk ck (tper 3) 3 3 (by omega) (by omega)),
      hstrip 2 (by omega) (by omega) _, hstrip 1 (by omega) (by omega) _,
      hstrip 0 (by omega) (by omega) _,
      hstripL 2 (by omega) (by omega) _, hstripL 1 (by omega) (by omega) _,
      hstripL 0 (by omega) (by omega) _,
      hpushF, hpushL]

theorem mem_of_getLast? {α : Type} (l : List α) (a : α) (h : l.getLast? = some a) :
    a ∈ l := by
  induction l with
  | nil => cases h
  | cons x xs ih =>
    cases xs with
    | nil =>
      simp [List.getLast?] at h
      simp [h]
    | cons y ys =>
      rw [List.getLast?_cons_cons] at h
      exact List.mem_cons_of_mem _ (ih h)

/-- Invariant maintained by increments from a fresh counter: every element
of a bucket index list is a bucket key of its granularity, the list key is
absent or holds a nonempty list, and every bucket key an increment derived
is in its index list. -/
theorem afterIncrements_inv (ck : String) (sched : ℕ → Frac × (ℕ → Frac)) (N : ℕ)
    (i : ℕ) (hi : i < 4) :
    (∀ k ∈ (afterIncrements ck sched N (initCounterIfNecessary emptyStore ck)).getList
        ((periodic_list_keys ck).getD i ""), ∃ t, k = periodicKeyAt ck i t) ∧
    ((afterIncrements ck sched N (initCounterIfNecessary emptyStore ck)).find
        ((periodic_list_keys ck).getD i "") = none ∨
      ∃ l', (afterIncrements ck sched N (initCounterIfNecessary emptyStore ck)).find
          ((periodic_list_keys ck).getD i "") = some (RVal.list l') ∧ l' ≠ []) ∧
    (∀ n, n < N → periodicKeyAt ck i ((sched n).2 i) ∈
      (afterIncrements ck sched N (initCounterIfNecessary emptyStore ck)).getList
        ((periodic_list_keys ck).getD i "")) := by
  induction N with
  | zero =>
    have hfind : (initCounterIfNecessary emptyStore ck).find
        ((periodic_list_keys ck).getD i "") = none := by
      unfold initCounterIfNecessary
      split_ifs
      · rw [Store.find_setStr, if_neg (Ne.symm (ck_ne_lk ck i hi))]
        rfl
      · rfl
    have hgl : (initCounterIfNecessary emptyStore ck).getList
        ((periodic_list_keys ck).getD i "") = [] := by
      unfold Store.getList
      rw [hfind]
    refine ⟨?_, ?_, ?_⟩
    · simp only [afterIncrements]
      rw [hgl]
      intro k hk
      cases hk
    · simp only [afterIncrements]
      left
      exact hfind
    · intro n hn
      cases hn
  | succ m ih =>
    obtain ⟨ih1, ih2, ih3⟩ := ih
    rw [afterIncrements]
    have hGL := increment_getList_lk ck (sched m).1 (sched m).2
      (afterIncrements ck sched m (initCounterIfNecessary emptyStore ck)) i hi
    have hF := increment_find_lk ck (sched m).1 (sched m).2
      (afterIncrements ck sched m (initCounterIfNecessary emptyStore ck)) i hi
    by_cases hlast : ((afterIncrements ck sched m
        (initCounterIfNecessary emptyStore ck)).getList
        ((periodic_list_keys ck).getD i "")).getLast? =
        some (periodicKeyAt ck i ((sched m).2 i))
    · rw [if_pos hlast] at hGL hF
      refine ⟨?_, ?_, ?_⟩
      · rw [hGL]
        exact ih1
      · rw [hF]
        exact ih2
      · intro n hn
        rw [hGL]
        rcases Nat.lt_succ_iff_lt_or_eq.mp hn with hn | hn
        · exact ih3 n hn
        · subst hn
          exact mem_of_getLast? _ _ hlast
    · rw [if_neg hlast] at hGL hF
      refine ⟨?_, ?_, ?_⟩
      · rw [hGL]
        intro k hk
        rcases List.mem_append.mp hk with hk | hk
        · exact ih1 k hk
        · simp only [List.mem_singleton] at hk
          exact ⟨(sched m).2 i, hk⟩
      · rw [hF]
        right
        exact ⟨_, rfl, by simp⟩
      · intro n hn
        rw [hGL]
        rcases Nat.lt_succ_iff_lt_or_eq.mp hn with hn | hn
        · exact List.mem_append_left _ (ih3 n hn)
        · subst hn
          exact List.mem_append_right _ (by simp)

theorem rk_mem (ck : String) (j : ℕ) (hj : j < 5) :
    (recent_counts_keys ck).getD j "" ∈ recent_counts_keys ck := by
  interval_cases j
  · rw [rkey0, recent_keys_eq]; simp
  · rw [rkey1, recent_keys_eq]; simp
  · rw [rkey2, recent_keys_eq]; simp
  · rw [rkey3, recent_keys_eq]; simp
  · rw [rkey4, recent_keys_eq]; simp

theorem lk_notmem_recent (ck : String) (i : ℕ) (hi : i < 4) :
    (periodic_list_keys ck).getD i "" ∉ recent_counts_keys ck := by
  rw [recent_keys_eq]
  intro hmem
  simp only [List.mem_cons, List.not_mem_nil, or_false] at hmem
  rcases hmem with h | h | h | h | h
  · exact rk_ne_lk ck 0 i (by omega) hi ((rkey0 ck).trans h.symm)
  · exact rk_ne_lk ck 1 i (by omega) hi ((rkey1 ck).trans h.symm)
  · exact rk_ne_lk ck 2 i (by omega) hi ((rkey2 ck).trans h.symm)
  · exact rk_ne_lk ck 3 i (by omega) hi ((rkey3 ck).trans h.symm)
  · exact rk_ne_lk ck 4 i (by omega) hi ((rkey4 ck).trans h.symm)

/-- After delete_counter, when every index list held only bucket keys of
its own granularity (and was absent or nonempty), the base key, the window
keys, the index lists and every key the index lists held are gone. -/
theorem delete_after_inv (ck : String) (st : Store)
    (hShape : ∀ i, i < 4 →
      (st.find ((periodic_list_keys ck).getD i "") = none ∨
       ∃ l', st.find ((periodic_list_keys ck).getD i "") = some (RVal.list l') ∧
         l' ≠ []))
    (hElems : ∀ i, i < 4 → ∀ k ∈ st.getList ((periodic_list_keys ck).getD i ""),
      ∃ t, k = periodicKeyAt ck i t) :
    (delete_counter ck st).find ck = none ∧
    (∀ j, j < 5 →
      (delete_counter ck st).find ((recent_counts_keys ck).getD j "") = none) ∧
    (∀ i, i < 4 →
      (delete_counter ck st).find ((periodic_list_keys ck).getD i "") = none) ∧
    (∀ i, i < 4 → ∀ k ∈ st.getList ((periodic_list_keys ck).getD i ""),
      (delete_counter ck st).find k = none) := by
  rw [delete_unfold]
  set B := (recent_counts_keys ck).foldl (fun s k => s.del k) (st.del ck) with hB
  set D0 := drainList B ((periodic_list_keys ck).getD 0 "") with hD0
  set D1 := drainList D0 ((periodic_list_keys ck).getD 1 "") with hD1
  set D2 := drainList D1 ((periodic_list_keys ck).getD 2 "") with hD2
  have hBfr : ∀ q, q ≠ ck → q ∉ recent_counts_keys ck → B.find q = st.find q := by
    intro q h1 h2
    rw [hB, foldl_del_frame _ _ _ h2, Store.find_del, if_neg h1]
  have hBck : B.find ck = none := by
    rw [hB]
    apply foldl_del_absent
    rw [Store.find_del, if_pos rfl]
  have hBrk : ∀ j, j < 5 → B.find ((recent_counts_keys ck).getD j "") = none := by
    intro j hj
    rw [hB]
    exact foldl_del_mem _ _ _ (rk_mem ck j hj)
  have hBlkF : ∀ i, i < 4 → B.find ((periodic_list_keys ck).getD i "") =
      st.find ((periodic_list_keys ck).getD i "") :=
    fun i hi => hBfr _ (Ne.symm (ck_ne_lk ck i hi)) (lk_notmem_recent ck i hi)
  have hBlkL : ∀ i, i < 4 → B.getList ((periodic_list_keys ck).getD i "") =
      st.getList ((periodic_list_keys ck).getD i "") :=
    fun i hi => Store.getList_congr _ _ _ (hBlkF i hi)
  have hElemGood : ∀ i, i < 4 → ∀ x ∈ st.getList ((periodic_list_keys ck).getD i ""),
      x ≠ "" ∧ x ≠ (periodic_list_keys ck).getD i "" := by
    intro i hi x hx
    obtain ⟨t, rfl⟩ := hElems i hi x hx
    exact ⟨pk_ne_empty ck t i hi, pk_ne_lk ck t i i hi hi⟩
  have hNoLk : ∀ i m, i < 4 → m < 4 → i ≠ m →
      (periodic_list_keys ck).getD i "" ∉
        st.getList ((periodic_list_keys ck).getD m "") := by
    intro i m hi hm him hmem
    obtain ⟨t, hteq⟩ := hElems m hm _ hmem
    exact pk_ne_lk ck t m i hm hi hteq.symm
  -- drain stage 0
  have hK0 := drain_kills B ((periodic_list_keys ck).getD 0 "")
    (by rw [hBlkL 0 (by omega)]; exact hElemGood 0 (by omega))
    (by rw [hBlkF 0 (by omega)]; exact hShape 0 (by omega))
  rw [hBlkL 0 (by omega)] at hK0
  have hD0lkF : ∀ i, i < 4 → i ≠ 0 → D0.find ((periodic_list_keys ck).getD i "") =
      st.find ((periodic_list_keys ck).getD i "") := by
    intro i hi hi0
    rw [hD0, drain_frame _ _ _ (lk_ne_lk ck i 0 hi (by omega) hi0)
      (by rw [hBlkL 0 (by omega)]; exact hNoLk i 0 hi (by omega) hi0), hBlkF i hi]
  have hD0lkL : ∀ i, i < 4 → i ≠ 0 → D0.getList ((periodic_list_keys ck).getD i "") =
      st.getList ((periodic_list_keys ck).getD i "") :=
    fun i hi hi0 => Store.getList_congr _ _ _ (hD0lkF i hi hi0)
  -- drain stage 1
  have hK1 := drain_kills D0 ((periodic_list_keys ck).getD 1 "")
    (by rw [hD0lkL 1 (by omega) (by omega)]; exact hElemGood 1 (by omega))
    (by rw [hD0lkF 1 (by omega) (by omega)]; exact hShape 1 (by omega))
  rw [hD0lkL 1 (by omega) (by omega)] at hK1
  have hD1lkF : ∀ i, i < 4 → i ≠ 0 → i ≠ 1 →
      D1.find ((periodic_list_keys ck).getD i "") =
      st.find ((periodic_list_keys ck).getD i "") := by
    intro i hi hi0 hi1
    rw [hD1, drain_frame _ _ _ (lk_ne_lk ck i 1 hi (by omega) hi1)
      (by rw [hD0lkL 1 (by omega) (by omega)]; exact hNoLk i 1 hi (by omega) hi1),
      hD0lkF i hi hi0]
  have hD1lkL : ∀ i, i < 4 → i ≠ 0 → i ≠ 1 →
      D1.getList ((periodic_list_keys ck).getD i "") =
      st.getList ((periodic_list_keys ck).getD i "") :=
    fun i hi hi0 hi1 => Store.getList_congr _ _ _ (hD1lkF i hi hi0 hi1)
  -- drain stage 2
  have hK2 := drain_kills D1 ((periodic_list_keys ck).getD 2 "")
    (by rw [hD1lkL 2 (by omega) (by omega) (by omega)]; exact hElemGood 2 (by omega))
    (by rw [hD1lkF 2 (by omega) (by omega) (by omega)]; exact hShape 2 (by omega))
  rw [hD1lkL 2 (by omega) (by omega) (by omega)] at hK2
  have hD2lkF : ∀ i, i < 4 → i ≠ 0 → i ≠ 1 → i ≠ 2 →
      D2.find ((periodic_list_keys ck).getD i "") =
      st.find ((periodic_list_keys ck).getD i "") := by
    intro i hi hi0 hi1 hi2
    rw [hD2, drain_frame _ _ _ (lk_ne_lk ck i 2 hi (by omega) hi2)
      (by rw [hD1lkL 2 (by omega) (by omega) (by omega)];
          exact hNoLk i 2 hi (by omega) hi2),
      hD1lkF i hi hi0 hi1]
  have hD2lkL : ∀ i, i < 4 → i ≠ 0 → i ≠ 1 → i ≠ 2 →
      D2.getList ((periodic_list_keys ck).getD i "") =
      st.getList ((periodic_list_keys ck).getD i "") :=
    fun i hi hi0 hi1 hi2 => Store.getList_congr _ _ _ (hD2lkF i hi hi0 hi1 hi2)
  -- drain stage 3
  have hK3 := drain_kills D2 ((periodic_list_keys ck).getD 3 "")
    (by rw [hD2lkL 3 (by omega) (by omega) (by omega) (by omega)]
        exact hElemGood 3 (by omega))
    (by rw [hD2lkF 3 (by omega) (by omega) (by omega) (by omega)]
        exact hShape 3 (by omega))
  rw [hD2lkL 3 (by omega) (by omega) (by omega) (by omega)] at hK3
  -- pushing absence forward
  have hPush0 : ∀ q, B.find q = none →
      (drainList D2 ((periodic_list_keys ck).getD 3 "")).find q = none := by
    intro q h
    apply drain_absent
    rw [hD2]
    apply drain_absent
    rw [hD1]
    apply drain_absent
    rw [hD0]
    exact drain_absent _ _ _ h
  have hPush1 : ∀ q, D0.find q = none →
      (drainList D2 ((periodic_list_keys ck).getD 3 "")).find q = none := by
    intro q h
    apply drain_absent
    rw [hD2]
    apply drain_absent
    rw [hD1]
    exact drain_absent _ _ _ h
  have hPush2 : ∀ q, D1.find q = none →
      (drainList D2 ((periodic_list_keys ck).getD 3 "")).find q = none := by
    intro q h
    apply drain_absent
    rw [hD2]
    exact drain_absent _ _ _ h
  have hPush3 : ∀ q, D2.find q = none →
      (drainList D2 ((periodic_list_keys ck).getD 3 "")).find q = none :=
    fun q h => drain_absent _ _ _ h
  refine ⟨hPush0 ck hBck, ?_, ?_, ?_⟩
  · intro j hj
    exact hPush0 _ (hBrk j hj)
  · intro i hi
    interval_cases i
    · exact hPush1 _ hK0.1
    · exact hPush2 _ hK1.1
    · exact hPush3 _ hK2.1
    · exact hK3.1
  · intro i hi k hk
    interval_cases i
    · exact hPush1 _ (hK0.2 k hk)
    · exact hPush2 _ (hK1.2 k hk)
    · exact hPush3 _ (hK2.2 k hk)
    · exact hK3.2 k hk

/-- C3: after delete_counter, the base counter key, all five sliding-window
list keys, all four bucket index lists, and every periodic bucket key that
any prior increment touched are absent from the backend; current_count
reads nothing. -/
theorem claim_C3 (name : String) (sched : ℕ → Frac × (ℕ → Frac)) (N : ℕ) :
    current_count (KEY_PREFIX_STR ++ name)
      (delete_counter (KEY_PREFIX_STR ++ name)
        (afterIncrements (KEY_PREFIX_STR ++ name) sched N
          (initCounterIfNecessary emptyStore (KEY_PREFIX_STR ++ name)))) = none ∧
    (delete_counter (KEY_PREFIX_STR ++ name)
        (afterIncrements (KEY_PREFIX_STR ++ name) sched N
          (initCounterIfNecessary emptyStore (KEY_PREFIX_STR ++ name)))).find
      (KEY_PREFIX_STR ++ name) = none ∧
    (∀ j, j < 5 →
      (delete_counter (KEY_PREFIX_STR ++ name)
          (afterIncrements (KEY_PREFIX_STR ++ name) sched N
            (initCounterIfNecessary emptyStore (KEY_PREFIX_STR ++ name)))).find
        ((recent_counts_keys (KEY_PREFIX_STR ++ name)).getD j "") = none) ∧
    (∀ i, i < 4 →
      (delete_counter (KEY_PREFIX_STR ++ name)
          (afterIncrements (KEY_PREFIX_STR ++ name) sched N
            (initCounterIfNecessary emptyStore (KEY_PREFIX_STR ++ name)))).find
        ((periodic_list_keys (KEY_PREFIX_STR ++ name)).getD i "") = none) ∧
    (∀ n, n < N → ∀ i, i < 4 →
      (delete_counter (KEY_PREFIX_STR ++ name)
          (afterIncrements (KEY_PREFIX_STR ++ name) sched N
            (initCounterIfNecessary emptyStore (KEY_PREFIX_STR ++ name)))).find
        (periodicKeyAt (KEY_PREFIX_STR ++ name) i ((sched n).2 i)) = none) := by
  have hinv := fun (i : ℕ) (hi : i < 4) =>
    afterIncrements_inv (KEY_PREFIX_STR ++ name) sched N i hi
  have hdel := delete_after_inv (KEY_PREFIX_STR ++ name)
    (afterIncrements (KEY_PREFIX_STR ++ name) sched N
      (initCounterIfNecessary emptyStore (KEY_PREFIX_STR ++ name)))
    (fun i hi => (hinv i hi).2.1) (fun i hi => (hinv i hi).1)
  refine ⟨?_, hdel.1, hdel.2.1, hdel.2.2.1, ?_⟩
  · show (delete_counter (KEY_PREFIX_STR ++ name)
        (afterIncrements (KEY_PREFIX_STR ++ name) sched N
          (initCounterIfNecessary emptyStore (KEY_PREFIX_STR ++ name)))).get
      (KEY_PREFIX_STR ++ name) = none
    unfold Store.get
    rw [hdel.1]
  · intro n hn i hi
    exact hdel.2.2.2 i hi _ ((hinv i hi).2.2 n hn)

theorem claim_C3_witness :
    (0 : ℕ) < 1 ∧ (0 : ℕ) < 4 ∧
    (delete_counter (KEY_PREFIX_STR ++ "c")
        (afterIncrements (KEY_PREFIX_STR ++ "c")
          (fun n => ((n : Frac), fun _ : ℕ => (n : Frac))) 1
          (initCounterIfNecessary emptyStore (KEY_PREFIX_STR ++ "c")))).find
      (periodicKeyAt (KEY_PREFIX_STR ++ "c") 0
        (((fun n : ℕ => ((n : Frac), fun _ : ℕ => (n : Frac))) 0).2 0)) = none :=
  ⟨by decide, by decide,
   (claim_C3 "c" (fun n => ((n : Frac), fun _ : ℕ => (n : Frac))) 1).2.2.2.2
     0 (by decide) 0 (by decide)⟩
